import Mathlib

/-!
Shallow embedding of the task-orchestration core of the claude-team
repository: the dependency-graph executor, the resilient multi-endpoint
invoker, the result cache and the persistent task ledger, together with
theorems settling the specification claims about them.

Conventions of the embedding:
- TypeScript strings are Lean `String`; ISO timestamps are `Nat` ticks.
- JavaScript `Map` objects are association lists `List (String × α)` kept
  in insertion order; `Map.set` on an existing key updates in place.
- Optional / possibly-missing fields are `Option`; JavaScript truthiness
  of a string is `s ≠ ""`, of an object is presence (`Option.isSome`).
- Fallible operations return `Option` results instead of `null`.
-/

/-- Workflow type from src/agents/tech-lead.ts. -/
inductive WorkflowType
  | parallel
  | sequential
  | mixed
deriving DecidableEq

/-- Model capability tier from src/agents/tech-lead.ts. -/
inductive ModelTier
  | fast
  | balanced
  | powerful
deriving DecidableEq

/-- Dynamic expert definition from src/agents/tech-lead.ts. -/
structure DynamicExpert where
  id : String
  name : String
  role : String
  tier : ModelTier
  skills : List String
deriving DecidableEq

/-- Subtask record from src/agents/tech-lead.ts. -/
structure SubTask where
  id : String
  description : String
  expertId : String
  dependencies : List String
  priority : Int
deriving DecidableEq

/-- Task analysis produced by the tech lead, from src/agents/tech-lead.ts. -/
structure TaskAnalysis where
  summary : String
  experts : List DynamicExpert
  subtasks : List SubTask
  workflow : WorkflowType
  needsReview : Bool
  notes : Option String
deriving DecidableEq

/-- Shape of a successfully JSON-parsed planner reply before field
validation: each field may be missing (or fail its array check), which we
model as `none`.  Mirrors the unvalidated `TaskAnalysis` cast in
`TechLead.parseAnalysis`. -/
structure RawAnalysis where
  summary : Option String
  experts : Option (List DynamicExpert)
  subtasks : Option (List SubTask)
  workflow : Option WorkflowType
  needsReview : Option Bool
  notes : Option String
deriving DecidableEq

namespace TechLead

/-- Fallback analysis from `TechLead.createFallbackAnalysis`
(src/agents/tech-lead.ts, lines 235-259): one generic expert and one
dependency-free subtask whose description is the raw model reply. -/
def createFallbackAnalysis (response : String) : TaskAnalysis :=
  { summary := "自动生成的任务"
    experts := [{ id := "fallback-expert"
                  name := "通用开发专家"
                  role := "你是一位全栈开发专家，能够处理各种技术任务。请根据用户需求提供专业的解决方案。"
                  tier := ModelTier.balanced
                  skills := ["全栈开发", "问题解决"] }]
    subtasks := [{ id := "task-1"
                   description := response
                   expertId := "fallback-expert"
                   dependencies := []
                   priority := 1 }]
    workflow := WorkflowType.sequential
    needsReview := false
    notes := none }

/-- Parse of the planner reply, from `TechLead.parseAnalysis`
(src/agents/tech-lead.ts, lines 199-227).  `jsonResult` is the outcome of
the JSON extraction and parse: `none` when no JSON object was found or the
text was invalid JSON; `some a` the parsed object, with `a.experts` or
`a.subtasks` equal to `none` when the corresponding field fails the
`Array.isArray` check.  Missing `summary` or a falsy empty string falls
back to the default, `workflow` defaults to `mixed`, `needsReview`
defaults (nullishly) to `true`. -/
def parseAnalysis (jsonResult : Option RawAnalysis) (response : String) : TaskAnalysis :=
  match jsonResult with
  | none => createFallbackAnalysis response
  | some a =>
    match a.experts, a.subtasks with
    | some es, some sts =>
      { summary := match a.summary with
                   | some s => if s = "" then "任务分析" else s
                   | none => "任务分析"
        experts := es
        subtasks := sts
        workflow := a.workflow.getD WorkflowType.mixed
        needsReview := a.needsReview.getD true
        notes := a.notes }
    | _, _ => createFallbackAnalysis response

/-- Analysis entry point `TechLead.analyze` (src/agents/tech-lead.ts,
lines 159-173): the remote reply text and its parse outcome are passed as
parameters; the result is the parse of the reply.  The task and context
only shape the prompt, never the parsed result. -/
def analyze (task : String) (context : Option String)
    (response : String) (jsonResult : Option RawAnalysis) : TaskAnalysis :=
  let _ := task
  let _ := context
  parseAnalysis jsonResult response

end TechLead

/-- Task and subtask status values from the resumable-task module. -/
inductive TaskStatus
  | pending
  | running
  | paused
  | completed
  | failed
deriving DecidableEq

/-- Output of one expert, from src/agents/expert.ts as used by the
orchestration and ledger code. -/
structure ExpertOutput where
  expertId : String
  expertName : String
  content : String
deriving DecidableEq

/-- Per-subtask execution state from the resumable-task module. -/
structure SubTaskState where
  id : String
  status : TaskStatus
  output : Option ExpertOutput
  error : Option String
  startedAt : Option Nat
  completedAt : Option Nat
deriving DecidableEq

/-- Durable ledger record of one task graph, from the resumable-task
module (`ResumableTask`). -/
structure ResumableTask where
  id : String
  task : String
  context : Option String
  status : TaskStatus
  experts : List DynamicExpert
  subtasks : List SubTask
  subtaskStates : List (String × SubTaskState)
  completedOutputs : List ExpertOutput
  workflow : String
  needsReview : Bool
  createdAt : Nat
  updatedAt : Nat
  pauseReason : Option String
  error : Option String
deriving DecidableEq

/-- Lookup in an insertion-ordered association list (JavaScript `Map.get`
/ record field access). -/
def assocGet {α : Type} (l : List (String × α)) (k : String) : Option α :=
  (l.find? (fun p => p.1 = k)).map Prod.snd

/-- Update in an insertion-ordered association list: replaces the value at
an existing key in place, otherwise appends (JavaScript `Map.set` /
keyed record assignment). -/
def assocSet {α : Type} (l : List (String × α)) (k : String) (v : α) : List (String × α) :=
  match l with
  | [] => [(k, v)]
  | (k2, v2) :: rest =>
    if k2 = k then (k2, v) :: rest else (k2, v2) :: assocSet rest k v

namespace ResumableTaskManager

/-- The on-disk task store: one record per id. -/
abbrev Store : Type := List (String × ResumableTask)

/-- Read a record by id (`ResumableTaskManager.get`); unknown ids give
`none`. -/
def get (store : Store) (id : String) : Option ResumableTask :=
  assocGet store id

/-- Persist a record (`ResumableTaskManager.save`): bump `updatedAt` to
the current time, then overwrite the whole record. -/
def save (store : Store) (task : ResumableTask) (now : Nat) : Store × ResumableTask :=
  let t2 := { task with updatedAt := now }
  (assocSet store task.id t2, t2)

/-- Partial subtask-state update (`Partial SubTaskState` in the source):
each field is applied only when present. -/
structure SubTaskUpdate where
  id : Option String
  status : Option TaskStatus
  output : Option ExpertOutput
  error : Option String
  startedAt : Option Nat
  completedAt : Option Nat
deriving DecidableEq

/-- The all-absent update. -/
def SubTaskUpdate.empty : SubTaskUpdate :=
  { id := none, status := none, output := none, error := none
    startedAt := none, completedAt := none }

/-- Field-wise overwrite of a subtask state by the present fields of an
update (JavaScript `Object.assign(state, update)`). -/
def applyUpdate (state : SubTaskState) (u : SubTaskUpdate) : SubTaskState :=
  { id := u.id.getD state.id
    status := u.status.getD state.status
    output := match u.output with | some o => some o | none => state.output
    error := match u.error with | some e => some e | none => state.error
    startedAt := match u.startedAt with | some t => some t | none => state.startedAt
    completedAt := match u.completedAt with | some t => some t | none => state.completedAt }

/-- Update one subtask state (`ResumableTaskManager.updateSubtask`): apply
the partial update, auto-stamp `startedAt` on a transition into `running`
when still unset, auto-stamp `completedAt` on a terminal status, append
the attached output (when present) to the accumulated outputs, then save
the whole record. -/
def updateSubtask (store : Store) (taskId subtaskId : String)
    (u : SubTaskUpdate) (now : Nat) : Store × Option ResumableTask :=
  match get store taskId with
  | none => (store, none)
  | some task =>
    match assocGet task.subtaskStates subtaskId with
    | none => (store, none)
    | some state =>
      let s1 := applyUpdate state u
      let s2 := if u.status = some TaskStatus.running ∧ s1.startedAt = none
                then { s1 with startedAt := some now } else s1
      let s3 := if u.status = some TaskStatus.completed ∨ u.status = some TaskStatus.failed
                then { s2 with completedAt := some now } else s2
      let task1 := { task with subtaskStates := assocSet task.subtaskStates subtaskId s3 }
      let task2 := match u.output with
                   | some o => { task1 with completedOutputs := task1.completedOutputs ++ [o] }
                   | none => task1
      let (store2, t2) := save store task2 now
      (store2, some t2)

/-- Pause a record (`ResumableTaskManager.pause`, src/unnamed/part_005
lines 503-511): succeeds on any existing record, setting status `paused`
and the pause reason, then saving. -/
def pause (store : Store) (taskId : String) (reason : Option String)
    (now : Nat) : Store × Option ResumableTask :=
  match get store taskId with
  | none => (store, none)
  | some task =>
    let t1 := { task with status := TaskStatus.paused, pauseReason := reason }
    let (store2, t2) := save store t1 now
    (store2, some t2)

/-- Resume a record (`ResumableTaskManager.resume`, src/unnamed/part_005
lines 516-524): succeeds only on an existing record whose status is
`paused`, setting status `running` and clearing the pause reason. -/
def resume (store : Store) (taskId : String) (now : Nat) :
    Store × Option ResumableTask :=
  match get store taskId with
  | none => (store, none)
  | some task =>
    if task.status = TaskStatus.paused then
      let t1 := { task with status := TaskStatus.running, pauseReason := none }
      let (store2, t2) := save store t1 now
      (store2, some t2)
    else (store, none)

end ResumableTaskManager

/-- Error shape seen by the resilient invoker (src/adapters/fallback.ts,
`RetryableError`): a message plus optional HTTP status and error code. -/
structure RetryableError where
  message : String
  status : Option Nat
  code : Option String
deriving DecidableEq

/-- JavaScript truthiness of the `status` field: absent or zero is falsy. -/
def statusTruthy (e : RetryableError) : Bool :=
  match e.status with
  | none => false
  | some s => s ≠ 0

/-- Configuration of the fallback adapter (src/adapters/fallback.ts).
Delays are rationals standing for millisecond amounts. -/
structure FallbackConfig where
  maxRetries : Nat
  retryDelay : ℚ
  maxRetryDelay : ℚ
  backoffMultiplier : ℚ
deriving DecidableEq

/-- Rate-limit classification used by `calculateBackoff`
(src/adapters/fallback.ts line 115): HTTP 429 or code
`rate_limit_exceeded`. -/
def rateLimited (e : Option RetryableError) : Bool :=
  match e with
  | none => false
  | some err => err.status = some 429 ∨ err.code = some "rate_limit_exceeded"

namespace FallbackAdapter

/-- Retry decision `FallbackAdapter.shouldRetry` (src/adapters/fallback.ts
lines 131-155), with the checks in source order: retry budget, retryable
status codes, transient network codes, missing status, then the 4xx
rejection, defaulting to retryable. -/
def shouldRetry (maxRetries : Nat) (e : RetryableError) (currentRetry : Nat) : Bool :=
  if maxRetries ≤ currentRetry then false
  else if e.status = some 429 then true
  else if e.status = some 500 then true
  else if e.status = some 502 then true
  else if e.status = some 503 then true
  else if e.status = some 504 then true
  else if e.code = some "ECONNRESET" then true
  else if e.code = some "ETIMEDOUT" then true
  else if e.code = some "ENOTFOUND" then true
  else if ¬ statusTruthy e then true
  else if match e.status with
          | some s => 400 ≤ s && s < 500
          | none => false then false
  else true

/-- Backoff computation `FallbackAdapter.calculateBackoff`
(src/adapters/fallback.ts lines 111-126).  `u` is the value drawn by
`Math.random()`, in `[0, 1)`. -/
def calculateBackoff (cfg : FallbackConfig) (retry : Nat)
    (lastError : Option RetryableError) (u : ℚ) : ℚ :=
  let delay := cfg.retryDelay * cfg.backoffMultiplier ^ (retry - 1)
  let delay2 := if rateLimited lastError then max delay 5000 * 2 else delay
  let jitter := delay2 * (2 / 10) * (u - 1 / 2)
  let delay3 := delay2 + jitter
  min delay3 cfg.maxRetryDelay

/-- Result of running the per-endpoint retry loop: the reply or the last
error, together with the number of attempts actually made against the
endpoint. -/
inductive AttemptOutcome
  | success (result : String) (attempts : Nat)
  | failure (lastError : RetryableError) (attempts : Nat)
deriving DecidableEq

/-- Placeholder error for the structurally unreachable out-of-fuel case of
the retry loop. -/
def dummyError : RetryableError :=
  { message := "", status := none, code := none }

/-- Inner retry loop of `FallbackAdapter.chat` (src/adapters/fallback.ts
lines 66-95) against one endpoint.  `behavior r` is the outcome of attempt
number `r` of the endpoint.  The loop leaves via success or via the
`shouldRetry` check; the fuel argument only bounds the recursion and never
runs out when started at `maxRetries + 1`. -/
def attemptGo (maxRetries : Nat) (behavior : Nat → Except RetryableError String) :
    Nat → Nat → Nat → AttemptOutcome
  | 0, _, att => AttemptOutcome.failure dummyError att
  | fuel + 1, retry, att =>
    match behavior retry with
    | Except.ok s => AttemptOutcome.success s (att + 1)
    | Except.error e =>
      if shouldRetry maxRetries e retry then attemptGo maxRetries behavior fuel (retry + 1) (att + 1)
      else AttemptOutcome.failure e (att + 1)

/-- Run one endpoint through its full retry budget. -/
def runAdapter (maxRetries : Nat) (behavior : Nat → Except RetryableError String) :
    AttemptOutcome :=
  attemptGo maxRetries behavior (maxRetries + 1) 0 0

/-- Number of attempts the retry loop makes against one endpoint. -/
def attemptsOn (maxRetries : Nat) (behavior : Nat → Except RetryableError String) : Nat :=
  match runAdapter maxRetries behavior with
  | AttemptOutcome.success _ n => n
  | AttemptOutcome.failure _ n => n

/-- Outer endpoint loop of `FallbackAdapter.chat` (src/adapters/fallback.ts
lines 58-105): walk the chain in order, carrying the last observed error;
an exhausted or non-retryable endpoint advances to the next one, an empty
remainder raises the terminal error. -/
def chatGo (maxRetries : Nat) :
    List (Nat → Except RetryableError String) → Option RetryableError →
    Except (Option RetryableError) String
  | [], lastError => Except.error lastError
  | behavior :: rest, _ =>
    match runAdapter maxRetries behavior with
    | AttemptOutcome.success s _ => Except.ok s
    | AttemptOutcome.failure e _ => chatGo maxRetries rest (some e)

/-- One logical `chat` call over the `[primary, ...fallbacks]` chain. -/
def chat (maxRetries : Nat)
    (adapters : List (Nat → Except RetryableError String)) :
    Except (Option RetryableError) String :=
  chatGo maxRetries adapters none

end FallbackAdapter

/-- Whitespace class of the JavaScript regular expression `\s` and of
`String.prototype.trim`, restricted to the ASCII range. -/
def jsWhitespace (c : Char) : Bool :=
  c = ' ' || c = '\t' || c = '\n' || c = '\r' ||
  c = Char.ofNat 11 || c = Char.ofNat 12

/-- Drop leading and trailing whitespace (`String.prototype.trim`). -/
def trimChars (l : List Char) : List Char :=
  ((l.dropWhile jsWhitespace).reverse.dropWhile jsWhitespace).reverse

/-- Scanner for `replace(/\s+/g, ' ')`: the flag records whether the
previous character belonged to a whitespace run whose single replacement
space was already emitted. -/
def collapseGo : Bool → List Char → List Char
  | _, [] => []
  | inRun, c :: rest =>
    if jsWhitespace c then
      if inRun then collapseGo true rest
      else ' ' :: collapseGo true rest
    else c :: collapseGo false rest

/-- Replace each maximal whitespace run with a single space
(`replace(/\s+/g, ' ')`). -/
def collapseChars (l : List Char) : List Char :=
  collapseGo false l

/-- One-string normalization step of `TaskCache.normalizeTask`
(src in cli.ts cache module, lines 682-693): lower-case, trim, collapse
whitespace runs.  `Char.toLower` models `toLowerCase` on the ASCII
range. -/
def normalizeString (s : String) : String :=
  String.mk (collapseChars (trimChars (s.toList.map Char.toLower)))

namespace TaskCache

/-- Cache entry (cli.ts cache module, `CacheEntry`). -/
structure CacheEntry where
  task : String
  result : String
  createdAt : Nat
  hits : Nat
deriving DecidableEq

/-- Cache configuration (`CacheConfig` with its defaults resolved by the
constructor). -/
structure Config where
  maxSize : Nat
  ttl : Nat
  enabled : Bool
deriving DecidableEq

/-- The cache content: an insertion-ordered map from fingerprint key to
entry.  The source keys entries by the md5 digest of the normalized
task and context; the digest is modeled as the normalized text itself
(injective fingerprint abstraction). -/
abbrev Cache : Type := List (String × CacheEntry)

/-- Fingerprint normalization `TaskCache.normalizeTask`: normalized task
and normalized context joined with a bar; a missing or falsy-empty
context contributes the empty string. -/
def normalizeTask (task : String) (context : Option String) : String :=
  let normalizedTask := normalizeString task
  let normalizedContext :=
    match context with
    | some c => if c = "" then "" else normalizeString c
    | none => ""
  normalizedTask ++ "|" ++ normalizedContext

/-- Expiry test of the cache (`now - entry.createdAt > this.ttl`); with
clock values as naturals the truncated subtraction agrees with the
JavaScript signed comparison. -/
def expired (cfg : Config) (now : Nat) (e : CacheEntry) : Bool :=
  cfg.ttl < now - e.createdAt

/-- Cache read `TaskCache.get` (cli.ts cache module, lines 698-715):
disabled mode and unknown keys miss; an expired entry is deleted and
misses; otherwise the hit counter is bumped and the stored result
returned. -/
def get (cfg : Config) (cache : Cache) (task : String) (context : Option String)
    (now : Nat) : Option String × Cache :=
  if ¬ cfg.enabled then (none, cache)
  else
    let key := normalizeTask task context
    match assocGet cache key with
    | none => (none, cache)
    | some entry =>
      if expired cfg now entry then
        (none, cache.filter (fun p => ¬ p.1 = key))
      else
        (some entry.result, assocSet cache key { entry with hits := entry.hits + 1 })

/-- Eviction count `Math.ceil(this.maxSize * 0.2)`, i.e. a fifth of the
capacity rounded up. -/
def deleteCount (maxSize : Nat) : Nat :=
  (maxSize + 4) / 5

/-- Stable ascending sort of the entries by hit count, as produced by the
JavaScript stable `Array.prototype.sort` with comparator
`a.hits - b.hits`. -/
def sortByHits (l : List (String × CacheEntry)) : List (String × CacheEntry) :=
  l.mergeSort (fun a b => a.2.hits ≤ b.2.hits)

/-- Eviction `TaskCache.evict` (cli.ts cache module, lines 740-760):
remove every expired entry; if the cache is still at capacity, remove the
`deleteCount` entries with the lowest hit counts (stable order). -/
def evict (cfg : Config) (cache : Cache) (now : Nat) : Cache :=
  let purged := cache.filter (fun p => ¬ expired cfg now p.2)
  if cfg.maxSize ≤ purged.length then
    let doomed := ((sortByHits purged).take (deleteCount cfg.maxSize)).map Prod.fst
    purged.filter (fun p => ¬ doomed.contains p.1)
  else purged

/-- Cache write `TaskCache.set` (cli.ts cache module, lines 720-735):
no-op when disabled; evict first when at capacity; then store the new
entry with a fresh hit counter under the fingerprint key. -/
def set (cfg : Config) (cache : Cache) (task result : String)
    (context : Option String) (now : Nat) : Cache :=
  if ¬ cfg.enabled then cache
  else
    let cache2 := if cfg.maxSize ≤ cache.length then evict cfg cache now else cache
    assocSet cache2 (normalizeTask task context)
      { task := task, result := result, createdAt := now, hits := 0 }

/-- One cache operation of a client session. -/
inductive Op
  | get (task : String) (context : Option String) (now : Nat)
  | set (task result : String) (context : Option String) (now : Nat)

/-- Apply one operation to the cache content. -/
def applyOp (cfg : Config) (cache : Cache) : Op → Cache
  | Op.get task context now => (get cfg cache task context now).2
  | Op.set task result context now => set cfg cache task result context now

/-- Run a whole operation sequence from a starting cache. -/
def applyOps (cfg : Config) (cache : Cache) (ops : List Op) : Cache :=
  ops.foldl (applyOp cfg) cache

end TaskCache

/-- Overall result of one orchestrated run (src/collaboration/
orchestrator.ts, `TeamResult`); conversation messages are abstracted to
their text. -/
structure TeamResult where
  success : Bool
  summary : String
  outputs : List ExpertOutput
  conversation : List String
deriving DecidableEq

namespace Orchestrator

/-- Lookup in the `taskMap` built by `new Map(subtasks.map(t => [t.id, t]))`:
on duplicate ids the later entry wins, so the last matching subtask is
returned. -/
def taskMapGet (tasks : List SubTask) (d : String) : Option SubTask :=
  tasks.reverse.find? (fun t => t.id = d)

/-- Depth-first visit of `Orchestrator.topologicalSort`
(src/collaboration/orchestrator.ts lines 418-440).  State is the visited
id set and the output list; a task is marked visited on entry, its
in-graph dependencies are visited in order, and the task itself is pushed
afterwards.  The fuel only bounds the recursion depth; level
`tasks.length + 1` is never exhausted because every nested call targets a
freshly marked id. -/
def visitF (tasks : List SubTask) :
    Nat → SubTask → List String → List SubTask → List String × List SubTask
  | 0, _, visited, sorted => (visited, sorted)
  | fuel + 1, t, visited, sorted =>
    if t.id ∈ visited then (visited, sorted)
    else
      let acc := t.dependencies.foldl (fun acc d =>
        match taskMapGet tasks d with
        | none => acc
        | some dep => visitF tasks fuel dep acc.1 acc.2) (t.id :: visited, sorted)
      (acc.1, acc.2 ++ [t])

/-- Depth-first topological sort over the declaration-ordered subtask
list, ties broken by declaration order of the outer loop. -/
def topologicalSort (tasks : List SubTask) : List SubTask :=
  (tasks.foldl (fun acc t => visitF tasks (tasks.length + 1) t acc.1 acc.2)
    ([], [])).2

/-- Sequential walk of `Orchestrator.executeSequential`
(src/collaboration/orchestrator.ts lines 307-343) over an already sorted
list: a subtask with an unmet dependency or a missing expert is skipped,
otherwise it executes and its id joins the completed set.  The result is
the ordered trace of executed subtask ids. -/
def seqGo (experts : List String) : List SubTask → List String → List String
  | [], _ => []
  | t :: rest, completed =>
    if t.dependencies.all (fun d => completed.contains d) then
      if experts.contains t.expertId then
        t.id :: seqGo experts rest (t.id :: completed)
      else seqGo experts rest completed
    else seqGo experts rest completed

/-- Sequential execution policy: topologically sort, then walk. -/
def executeSequential (experts : List String) (subtasks : List SubTask) :
    List String :=
  seqGo experts (topologicalSort subtasks) []

/-- Ids executed by one parallel batch (`Orchestrator.executeParallel`):
subtasks whose expert is missing are skipped. -/
def executeParallelIds (experts : List String) (batch : List SubTask) :
    List String :=
  (batch.filter (fun t => experts.contains t.expertId)).map (fun t => t.id)

/-- Remove the first subtask with the given id
(`pending.findIndex` plus `splice` in `executeMixed`). -/
def removeById : List SubTask → String → List SubTask
  | [], _ => []
  | t :: rest, id => if t.id = id then rest else t :: removeById rest id

/-- Remove one occurrence of each ready subtask id from the pending
list. -/
def removeReady (pending : List SubTask) (ready : List SubTask) : List SubTask :=
  ready.foldl (fun acc t => removeById acc t.id) pending

/-- The ready frontier: pending subtasks whose declared dependencies are
all completed. -/
def readyOf (pending : List SubTask) (completed : List String) : List SubTask :=
  pending.filter (fun t => t.dependencies.all (fun d => completed.contains d))

/-- Wavefront loop of `Orchestrator.executeMixed`
(src/collaboration/orchestrator.ts lines 348-380).  Each round filters the
ready frontier, halts with the outputs so far when the frontier is empty
(cycle case, also covering exhausted pending work), otherwise runs the
batch, marks every ready subtask completed and removes it from pending.
`fuel` models the a priori unbounded `while` loop: `none` means the
budget was exhausted before the loop left. -/
def mixedGoF (experts : List String) :
    Nat → List SubTask → List String → List String → Option (List String)
  | fuel, pending, completed, outputs =>
    if pending.isEmpty then some outputs
    else
      let ready := readyOf pending completed
      if ready.isEmpty then some outputs
      else
        match fuel with
        | 0 => none
        | fuel + 1 =>
          mixedGoF experts fuel (removeReady pending ready)
            (completed ++ ready.map (fun t => t.id))
            (outputs ++ executeParallelIds experts ready)

/-- Mixed (wavefront) execution with a fuel budget of one round per
subtask. -/
def executeMixed (experts : List String) (subtasks : List SubTask) :
    Option (List String) :=
  mixedGoF experts subtasks.length subtasks [] []

/-- Abstract remainder of the cache-miss path of `Orchestrator.execute`:
given task and context it yields the final summary, the collected outputs
and the conversation history produced by planning, execution, review and
summarization. -/
def Pipeline : Type :=
  String → Option String → String × List ExpertOutput × List String

/-- Cache-miss branch of `Orchestrator.execute`: run the pipeline (which
invokes the planner exactly once), cache the summary, and report a
successful result.  The third component records that the planner was
invoked. -/
def executeMiss (cfg : TaskCache.Config) (pipeline : Pipeline)
    (cache : TaskCache.Cache) (task : String) (context : Option String)
    (now : Nat) : TeamResult × TaskCache.Cache × Bool :=
  let r := pipeline task context
  let summary := r.1
  let cache2 := TaskCache.set cfg cache task summary context now
  ({ success := true, summary := summary, outputs := r.2.1
     conversation := r.2.2 }, cache2, true)

/-- Entry point `Orchestrator.execute` (src/collaboration/orchestrator.ts
lines 184-253): a truthy cached result short-circuits into a successful
result with empty outputs and conversation; otherwise the full pipeline
runs and its summary is cached.  A cached empty string is falsy in the
`if (cachedResult)` test and therefore does not short-circuit. -/
def execute (cfg : TaskCache.Config) (pipeline : Pipeline)
    (cache : TaskCache.Cache) (task : String) (context : Option String)
    (now : Nat) : TeamResult × TaskCache.Cache × Bool :=
  let r := TaskCache.get cfg cache task context now
  match r.1 with
  | some s =>
    if s = "" then executeMiss cfg pipeline r.2 task context now
    else ({ success := true, summary := s, outputs := [], conversation := [] },
          r.2, false)
  | none => executeMiss cfg pipeline r.2 task context now

end Orchestrator

/-! Shared lemmas about the association-list operations. -/

/-- Setting a key makes it retrievable, whether it existed or not. -/
theorem assocGet_assocSet_self {α : Type} (l : List (String × α)) (k : String) (v : α) :
    assocGet (assocSet l k v) k = some v := by
  induction l with
  | nil => simp [assocSet, assocGet]
  | cons p rest ih =>
    obtain ⟨k2, v2⟩ := p
    by_cases h : k2 = k
    · subst h
      simp [assocSet, assocGet]
    · simp only [assocSet, if_neg h]
      simpa [assocGet, List.find?_cons, h] using ih

/-- Setting one key leaves every other key unchanged. -/
theorem assocGet_assocSet_ne {α : Type} (l : List (String × α)) (k k2 : String) (v : α)
    (h : k ≠ k2) : assocGet (assocSet l k v) k2 = assocGet l k2 := by
  induction l with
  | nil => simp [assocSet, assocGet, List.find?_cons, h]
  | cons p rest ih =>
    obtain ⟨k3, v3⟩ := p
    by_cases h3 : k3 = k
    · subst h3
      simp [assocSet, assocGet, List.find?_cons, h]
    · simp only [assocSet, if_neg h3]
      by_cases h4 : k3 = k2
      · subst h4
        simp [assocGet, List.find?_cons]
      · simpa [assocGet, List.find?_cons, h4] using ih

/-- Updating an existing key keeps the number of entries. -/
theorem length_assocSet_of_mem {α : Type} (l : List (String × α)) (k : String) (v e : α)
    (h : assocGet l k = some e) : (assocSet l k v).length = l.length := by
  induction l with
  | nil => simp [assocGet] at h
  | cons p rest ih =>
    obtain ⟨k2, v2⟩ := p
    by_cases h2 : k2 = k
    · subst h2
      simp [assocSet]
    · have h' : assocGet rest k = some e := by
        simpa [assocGet, List.find?_cons, h2] using h
      simp only [assocSet, if_neg h2, List.length_cons]
      rw [ih h']

/-- Setting a key grows the entry count by at most one. -/
theorem length_assocSet_le {α : Type} (l : List (String × α)) (k : String) (v : α) :
    (assocSet l k v).length ≤ l.length + 1 := by
  induction l with
  | nil => simp [assocSet]
  | cons p rest ih =>
    obtain ⟨k2, v2⟩ := p
    by_cases h2 : k2 = k
    · simp [assocSet, h2]
    · simp only [assocSet, if_neg h2, List.length_cons]
      omega

/-! Sample ledger records used as concrete inputs. -/

/-- Fresh subtask state with a chosen status. -/
def sampleState (id : String) (st : TaskStatus) : SubTaskState :=
  { id := id, status := st, output := none, error := none
    startedAt := none, completedAt := none }

/-- Simple one-subtask ledger record with chosen record and subtask
statuses. -/
def sampleRecord (status subStatus : TaskStatus) : ResumableTask :=
  { id := "t1", task := "demo task", context := none, status := status
    experts := [], subtasks := []
    subtaskStates := [("s1", sampleState "s1" subStatus)]
    completedOutputs := [], workflow := "mixed", needsReview := false
    createdAt := 0, updatedAt := 0, pauseReason := none, error := none }

/-- C1 counterexample: `pause` succeeds on a record whose stored status is
`completed`, so pause is not legal only on running records as the claim
states. -/
theorem C1_counterexample :
    (ResumableTaskManager.get
        [("t1", sampleRecord TaskStatus.completed TaskStatus.pending)] "t1").map
      ResumableTask.status = some TaskStatus.completed ∧
    ((ResumableTaskManager.pause
        [("t1", sampleRecord TaskStatus.completed TaskStatus.pending)] "t1" none 5).2).map
      ResumableTask.status = some TaskStatus.paused := by
  decide

/-- C1 (amended): `pause` succeeds on any existing ledger record
regardless of its stored status, yielding status `paused`; `resume`
succeeds exactly on a record whose status is `paused`, yielding
`running`; `pause` on a running record followed by `resume` restores
status `running`. -/
theorem C1_pause_resume (store : ResumableTaskManager.Store) (key : String)
    (reason : Option String) (now now2 : Nat) (t : ResumableTask)
    (h : ResumableTaskManager.get store key = some t) (hid : t.id = key) :
    (∃ t2, (ResumableTaskManager.pause store key reason now).2 = some t2 ∧
       t2.status = TaskStatus.paused ∧ t2.pauseReason = reason) ∧
    (t.status ≠ TaskStatus.paused →
       (ResumableTaskManager.resume store key now).2 = none) ∧
    (t.status = TaskStatus.paused →
       ∃ t3, (ResumableTaskManager.resume store key now).2 = some t3 ∧
         t3.status = TaskStatus.running) ∧
    (t.status = TaskStatus.running →
       ∃ t4, (ResumableTaskManager.resume
           (ResumableTaskManager.pause store key reason now).1 key now2).2 = some t4 ∧
         t4.status = TaskStatus.running) := by
  refine ⟨?_, ?_, ?_, ?_⟩
  · have h1 : (ResumableTaskManager.pause store key reason now).2 =
        some { t with status := TaskStatus.paused
                      pauseReason := reason, updatedAt := now } := by
      simp [ResumableTaskManager.pause, h, ResumableTaskManager.save]
    rw [h1]
    exact ⟨_, rfl, rfl, rfl⟩
  · intro hne
    simp [ResumableTaskManager.resume, h, hne]
  · intro hp
    have h3 : (ResumableTaskManager.resume store key now).2 =
        some { t with status := TaskStatus.running
                      pauseReason := none, updatedAt := now } := by
      simp [ResumableTaskManager.resume, h, hp, ResumableTaskManager.save]
    rw [h3]
    exact ⟨_, rfl, rfl⟩
  · intro hr
    have hstore : (ResumableTaskManager.pause store key reason now).1 =
        assocSet store key { t with status := TaskStatus.paused
                                    pauseReason := reason, updatedAt := now } := by
      simp [ResumableTaskManager.pause, h, ResumableTaskManager.save, hid]
    have hget : ResumableTaskManager.get
        (ResumableTaskManager.pause store key reason now).1 key =
        some { t with status := TaskStatus.paused
                      pauseReason := reason, updatedAt := now } := by
      rw [hstore]
      exact assocGet_assocSet_self store key _
    have h4 : (ResumableTaskManager.resume
        (ResumableTaskManager.pause store key reason now).1 key now2).2 =
        some { t with status := TaskStatus.running
                      pauseReason := none, updatedAt := now2 } := by
      simp [ResumableTaskManager.resume, hget, ResumableTaskManager.save]
    rw [h4]
    exact ⟨_, rfl, rfl⟩

/-- C1 witness: the amended behavior at a concrete running record. -/
theorem C1_witness :
    ∃ t4, (ResumableTaskManager.resume
        (ResumableTaskManager.pause
          [("t1", sampleRecord TaskStatus.running TaskStatus.pending)]
          "t1" (some "break") 5).1 "t1" 6).2 = some t4 ∧
      t4.status = TaskStatus.running :=
  (C1_pause_resume
      [("t1", sampleRecord TaskStatus.running TaskStatus.pending)]
      "t1" (some "break") 5 6 (sampleRecord TaskStatus.running TaskStatus.pending)
      (by decide) (by decide)).2.2.2 rfl

/-- C9 counterexample: `updateSubtask` moves a subtask from the terminal
status `completed` back to `pending`, so subtask statuses are not
restricted to forward transitions. -/
theorem C9_counterexample :
    (assocGet (sampleRecord TaskStatus.running TaskStatus.completed).subtaskStates
        "s1").map SubTaskState.status = some TaskStatus.completed ∧
    ((ResumableTaskManager.updateSubtask
        [("t1", sampleRecord TaskStatus.running TaskStatus.completed)] "t1" "s1"
        { ResumableTaskManager.SubTaskUpdate.empty with
            status := some TaskStatus.pending } 5).2.bind
      (fun t => (assocGet t.subtaskStates "s1").map SubTaskState.status)) =
      some TaskStatus.pending := by
  decide

/-- C9 (amended): `updateSubtask` sets a subtask status to exactly the
status carried by the update, enforcing no transition discipline, while
`pause` and `resume` change only record-level fields and leave every
subtask state untouched. -/
theorem C9_subtask_transitions (store : ResumableTaskManager.Store) (key : String)
    (reason : Option String) (now : Nat) (t : ResumableTask)
    (h : ResumableTaskManager.get store key = some t) :
    (∀ t2, (ResumableTaskManager.pause store key reason now).2 = some t2 →
       t2.subtaskStates = t.subtaskStates) ∧
    (∀ t2, (ResumableTaskManager.resume store key now).2 = some t2 →
       t2.subtaskStates = t.subtaskStates) ∧
    (∀ sid st u state, assocGet t.subtaskStates sid = some state →
       u.status = some st →
       ∃ t2 state2,
         (ResumableTaskManager.updateSubtask store key sid u now).2 = some t2 ∧
         assocGet t2.subtaskStates sid = some state2 ∧ state2.status = st) := by
  refine ⟨?_, ?_, ?_⟩
  · intro t2 h2
    simp [ResumableTaskManager.pause, h, ResumableTaskManager.save] at h2
    subst h2
    rfl
  · intro t2 h2
    by_cases hp : t.status = TaskStatus.paused
    · simp [ResumableTaskManager.resume, h, hp, ResumableTaskManager.save] at h2
      subst h2
      rfl
    · simp [ResumableTaskManager.resume, h, hp] at h2
  · intro sid st u state hstate hst
    unfold ResumableTaskManager.updateSubtask
    rw [h]
    dsimp only
    rw [hstate]
    dsimp only [ResumableTaskManager.save]
    cases hout : u.output
    all_goals
      simp only [hout]
      refine ⟨_, _, rfl, assocGet_assocSet_self _ _ _, ?_⟩
      split <;> split <;>
        simp [ResumableTaskManager.applyUpdate, hst]

/-- C2 counterexample: when the planner reply holds no JSON, the fallback
subtask's description is the raw reply text, not the original task text. -/
theorem C2_counterexample :
    (TechLead.analyze "build an app" none "no json here" none).subtasks.map
      SubTask.description = ["no json here"] ∧
    "no json here" ≠ "build an app" := by
  constructor
  · rfl
  · decide

/-- C2 (amended): whenever the planner reply cannot be parsed into the
expected shape (no JSON object, invalid JSON, or experts/subtasks failing
the array check), `analyze` yields exactly one generic fallback expert and
exactly one dependency-free subtask assigned to it whose description is
the raw planner reply. -/
theorem C2_fallback_shape (task : String) (context : Option String)
    (response : String) (jsonResult : Option RawAnalysis)
    (h : jsonResult = none ∨
      ∃ a, jsonResult = some a ∧ (a.experts = none ∨ a.subtasks = none)) :
    (TechLead.analyze task context response jsonResult).experts.map
        DynamicExpert.id = ["fallback-expert"] ∧
    (TechLead.analyze task context response jsonResult).subtasks.map
        (fun st => (st.description, st.expertId, st.dependencies)) =
      [(response, "fallback-expert", [])] := by
  have hfb : TechLead.analyze task context response jsonResult =
      TechLead.createFallbackAnalysis response := by
    rcases h with h | ⟨a, ha, hbad⟩
    · simp [TechLead.analyze, TechLead.parseAnalysis, h]
    · subst ha
      rcases hexp : a.experts with _ | es <;>
        rcases hsub : a.subtasks with _ | sts <;>
          simp_all [TechLead.analyze, TechLead.parseAnalysis]
  rw [hfb]
  exact ⟨rfl, rfl⟩

/-- C2 witness: the amended fallback shape at a concrete unparseable
reply. -/
theorem C2_witness :
    (TechLead.analyze "write tests" (some "ctx") "garbled reply"
        (some { summary := none, experts := none, subtasks := none
                workflow := none, needsReview := none, notes := none })).experts.map
      DynamicExpert.id = ["fallback-expert"] :=
  (C2_fallback_shape "write tests" (some "ctx") "garbled reply"
      (some { summary := none, experts := none, subtasks := none
              workflow := none, needsReview := none, notes := none })
      (Or.inr ⟨_, rfl, Or.inl rfl⟩)).1

/-- C4 (confirmed): the backoff before retry `r` equals the base delay
`retryDelay * backoffMultiplier ^ (r - 1)` — first floored at 5000 ms and
doubled when the last failure is rate-limited — perturbed by a jitter
fraction within plus or minus 20 percent, then capped at
`maxRetryDelay`. -/
theorem C4_backoff (cfg : FallbackConfig) (r : Nat)
    (lastError : Option RetryableError) (u : ℚ)
    (_hr : 1 ≤ r) (h0 : 0 ≤ u) (h1 : u ≤ 1) :
    ∃ j : ℚ, |j| ≤ 1 / 5 ∧
      FallbackAdapter.calculateBackoff cfg r lastError u =
        min ((if rateLimited lastError then
                max (cfg.retryDelay * cfg.backoffMultiplier ^ (r - 1)) 5000 * 2
              else cfg.retryDelay * cfg.backoffMultiplier ^ (r - 1)) * (1 + j))
          cfg.maxRetryDelay := by
  refine ⟨2 / 10 * (u - 1 / 2), ?_, ?_⟩
  · rw [abs_le]
    constructor <;> linarith
  · cases h : rateLimited lastError <;>
      simp only [FallbackAdapter.calculateBackoff, h, Bool.false_eq_true,
        if_false, if_true, reduceIte] <;>
      ring_nf

/-- C4 witness: the backoff decomposition at concrete configuration,
retry number and random draw. -/
theorem C4_witness :
    ∃ j : ℚ, |j| ≤ 1 / 5 ∧
      FallbackAdapter.calculateBackoff
          { maxRetries := 3, retryDelay := 1000
            maxRetryDelay := 30000, backoffMultiplier := 2 } 2 none (1 / 2) =
        min ((if rateLimited none then
                max ((1000 : ℚ) * 2 ^ (2 - 1)) 5000 * 2
              else (1000 : ℚ) * 2 ^ (2 - 1)) * (1 + j)) 30000 :=
  C4_backoff
    { maxRetries := 3, retryDelay := 1000
      maxRetryDelay := 30000, backoffMultiplier := 2 } 2 none (1 / 2)
    (by decide) (by norm_num) (by norm_num)

/-- C7 counterexample: an error carrying HTTP status 400 together with the
transient network code ECONNRESET is retried up to the full budget (three
attempts with maxRetries 2), because the transient-code checks precede
the 4xx rejection in `shouldRetry`. -/
theorem C7_counterexample :
    FallbackAdapter.attemptsOn 2
        (fun _ => Except.error
          { message := "Bad Request", status := some 400
            code := some "ECONNRESET" }) = 3 ∧
    (3 : Nat) ≠ 1 := by
  constructor
  · rfl
  · decide

/-- Unfolding equation for one step of the per-endpoint retry loop. -/
theorem attemptGo_step (mR : Nat) (behavior : Nat → Except RetryableError String)
    (fuel retry att : Nat) :
    FallbackAdapter.attemptGo mR behavior (fuel + 1) retry att =
      match behavior retry with
      | Except.ok s => FallbackAdapter.AttemptOutcome.success s (att + 1)
      | Except.error e =>
        if FallbackAdapter.shouldRetry mR e retry then
          FallbackAdapter.attemptGo mR behavior fuel (retry + 1) (att + 1)
        else FallbackAdapter.AttemptOutcome.failure e (att + 1) := rfl

/-- Unfolding equation for the endpoint chain. -/
theorem chatGo_cons (mR : Nat) (b : Nat → Except RetryableError String)
    (rest : List (Nat → Except RetryableError String))
    (lastError : Option RetryableError) :
    FallbackAdapter.chatGo mR (b :: rest) lastError =
      match FallbackAdapter.runAdapter mR b with
      | FallbackAdapter.AttemptOutcome.success s _ => Except.ok s
      | FallbackAdapter.AttemptOutcome.failure e _ =>
        FallbackAdapter.chatGo mR rest (some e) := rfl

/-- C7 (amended): an endpoint failing with a 4xx status other than 429
whose error code is not one of the transient network codes is abandoned
after exactly one attempt and the invoker advances to the next endpoint;
an error carrying no status is always retryable within the budget. -/
theorem C7_no_retry_4xx (maxRetries : Nat) (e : RetryableError) (s : Nat)
    (behavior : Nat → Except RetryableError String)
    (rest : List (Nat → Except RetryableError String))
    (lastError : Option RetryableError)
    (hs : e.status = some s) (h4 : 400 ≤ s) (h5 : s < 500) (h429 : s ≠ 429)
    (hc1 : e.code ≠ some "ECONNRESET") (hc2 : e.code ≠ some "ETIMEDOUT")
    (hc3 : e.code ≠ some "ENOTFOUND") (hb : behavior 0 = Except.error e) :
    FallbackAdapter.runAdapter maxRetries behavior =
      FallbackAdapter.AttemptOutcome.failure e 1 ∧
    FallbackAdapter.attemptsOn maxRetries behavior = 1 ∧
    FallbackAdapter.chatGo maxRetries (behavior :: rest) lastError =
      FallbackAdapter.chatGo maxRetries rest (some e) ∧
    (∀ e2 r mR2, e2.status = none → r < mR2 →
      FallbackAdapter.shouldRetry mR2 e2 r = true) := by
  have hnr : FallbackAdapter.shouldRetry maxRetries e 0 = false := by
    unfold FallbackAdapter.shouldRetry
    have h500 : e.status ≠ some 500 := by rw [hs]; intro hx; simp at hx; omega
    have h502 : e.status ≠ some 502 := by rw [hs]; intro hx; simp at hx; omega
    have h503 : e.status ≠ some 503 := by rw [hs]; intro hx; simp at hx; omega
    have h504 : e.status ≠ some 504 := by rw [hs]; intro hx; simp at hx; omega
    have h429s : e.status ≠ some 429 := by rw [hs]; intro hx; simp at hx; omega
    have htr : statusTruthy e = true := by
      unfold statusTruthy
      rw [hs]
      simp
      omega
    by_cases hm : maxRetries ≤ 0
    · simp [hm]
    · simp only [if_neg hm, if_neg h429s, if_neg h500, if_neg h502, if_neg h503,
        if_neg h504, if_neg hc1, if_neg hc2, if_neg hc3, htr]
      rw [hs]
      simp
      omega
  have hrun : FallbackAdapter.runAdapter maxRetries behavior =
      FallbackAdapter.AttemptOutcome.failure e 1 := by
    show FallbackAdapter.attemptGo maxRetries behavior (maxRetries + 1) 0 0 = _
    rw [attemptGo_step, hb]
    dsimp only
    rw [hnr]
    simp
  refine ⟨hrun, ?_, ?_, ?_⟩
  · unfold FallbackAdapter.attemptsOn
    rw [hrun]
  · rw [chatGo_cons, hrun]
  · intro e2 r mR2 hnone hlt
    unfold FallbackAdapter.shouldRetry
    have : statusTruthy e2 = false := by unfold statusTruthy; rw [hnone]
    by_cases hb1 : e2.code = some "ECONNRESET" <;>
      by_cases hb2 : e2.code = some "ETIMEDOUT" <;>
        by_cases hb3 : e2.code = some "ENOTFOUND" <;>
          simp [hnone, this, hb1, hb2, hb3, Nat.not_le.mpr hlt]

/-- C7 witness: the amended no-retry behavior at a concrete plain 400
error. -/
theorem C7_witness :
    FallbackAdapter.attemptsOn 2
      (fun _ => Except.error
        { message := "Bad Request", status := some 400, code := none }) = 1 :=
  (C7_no_retry_4xx 2
      { message := "Bad Request", status := some 400, code := none } 400
      (fun _ => Except.error
        { message := "Bad Request", status := some 400, code := none })
      [] none rfl (by decide) (by decide) (by decide)
      (by decide) (by decide) (by decide) rfl).2.1

/-- C9 witness: the amended behavior at a concrete record and update. -/
theorem C9_witness :
    ∃ t2 state2,
      (ResumableTaskManager.updateSubtask
        [("t1", sampleRecord TaskStatus.running TaskStatus.pending)] "t1" "s1"
        { ResumableTaskManager.SubTaskUpdate.empty with
            status := some TaskStatus.running } 5).2 = some t2 ∧
      assocGet t2.subtaskStates "s1" = some state2 ∧
      state2.status = TaskStatus.running :=
  (C9_subtask_transitions
      [("t1", sampleRecord TaskStatus.running TaskStatus.pending)] "t1" none 5
      (sampleRecord TaskStatus.running TaskStatus.pending) (by decide)).2.2
    "s1" TaskStatus.running
    { ResumableTaskManager.SubTaskUpdate.empty with status := some TaskStatus.running }
    (sampleState "s1" TaskStatus.pending) (by decide) rfl

/-- Deleting a key by filtering removes it from lookup. -/
theorem assocGet_filter_ne {α : Type} (l : List (String × α)) (k : String) :
    assocGet (l.filter (fun p => ¬ p.1 = k)) k = none := by
  induction l with
  | nil => rfl
  | cons p rest ih =>
    obtain ⟨k2, v2⟩ := p
    by_cases h2 : k2 = k
    · rw [show List.filter (fun p => decide ¬ p.1 = k) ((k2, v2) :: rest) =
          List.filter (fun p => decide ¬ p.1 = k) rest by simp [List.filter, h2]]
      exact ih
    · rw [show List.filter (fun p => decide ¬ p.1 = k) ((k2, v2) :: rest) =
          (k2, v2) :: List.filter (fun p => decide ¬ p.1 = k) rest by
        simp [List.filter, h2]]
      rw [show assocGet ((k2, v2) ::
            List.filter (fun p => decide ¬ p.1 = k) rest) k =
          assocGet (List.filter (fun p => decide ¬ p.1 = k) rest) k by
        simp [assocGet, List.find?_cons, h2]]
      exact ih

/-- C8 (confirmed): with the cache enabled, a `set` followed immediately
by a `get` whose task and context normalize to the same fingerprint
(equality up to letter case and whitespace runs) returns the stored
result, and a `get` on an entry whose age exceeds the TTL removes the
entry and misses. -/
theorem C8_cache_roundtrip (cfg : TaskCache.Config) (cache : TaskCache.Cache)
    (task result : String) (context : Option String)
    (task2 : String) (context2 : Option String) (now : Nat)
    (henabled : cfg.enabled = true)
    (hkey : TaskCache.normalizeTask task2 context2 =
      TaskCache.normalizeTask task context) :
    (TaskCache.get cfg (TaskCache.set cfg cache task result context now)
        task2 context2 now).1 = some result ∧
    (∀ cache2 t c e now2,
       assocGet cache2 (TaskCache.normalizeTask t c) = some e →
       cfg.ttl < now2 - e.createdAt →
       (TaskCache.get cfg cache2 t c now2).1 = none ∧
       assocGet (TaskCache.get cfg cache2 t c now2).2
         (TaskCache.normalizeTask t c) = none) := by
  constructor
  · have hset : TaskCache.set cfg cache task result context now =
        assocSet (if cfg.maxSize ≤ cache.length
            then TaskCache.evict cfg cache now else cache)
          (TaskCache.normalizeTask task context)
          { task := task, result := result, createdAt := now, hits := 0 } := by
      simp [TaskCache.set, henabled]
    have hget : assocGet (TaskCache.set cfg cache task result context now)
        (TaskCache.normalizeTask task context) =
        some { task := task, result := result, createdAt := now, hits := 0 } := by
      rw [hset]
      exact assocGet_assocSet_self _ _ _
    have hexp : TaskCache.expired cfg now
        { task := task, result := result, createdAt := now, hits := 0 } = false := by
      simp [TaskCache.expired]
    simp [TaskCache.get, henabled, hkey, hget, hexp]
  · intro cache2 t c e now2 hmem httl
    have hexp : TaskCache.expired cfg now2 e = true := by
      simpa [TaskCache.expired] using httl
    constructor
    · simp [TaskCache.get, henabled, hmem, hexp]
    · simp only [TaskCache.get, henabled, hmem, hexp]
      simpa using assocGet_filter_ne cache2 (TaskCache.normalizeTask t c)

/-- C8 witness: a concrete round trip where the second task and context
differ from the first only in letter case and whitespace runs. -/
theorem C8_witness :
    (TaskCache.get { maxSize := 100, ttl := 1000, enabled := true }
        (TaskCache.set { maxSize := 100, ttl := 1000, enabled := true } []
          "Design  a Cache" "use an LRU" (some "Web  App") 7)
        "design a cache" (some "web app") 7).1 = some "use an LRU" :=
  (C8_cache_roundtrip { maxSize := 100, ttl := 1000, enabled := true } []
      "Design  a Cache" "use an LRU" (some "Web  App")
      "design a cache" (some "web app") 7 rfl (by decide)).1

/-- C10 counterexample: an empty-string summary is cached but, being
falsy in the `if (cachedResult)` test, does not short-circuit the second
`execute` call, which invokes the planner pipeline again. -/
theorem C10_counterexample :
    let cfg : TaskCache.Config := { maxSize := 100, ttl := 1000, enabled := true }
    let pipeline : Orchestrator.Pipeline := fun _ _ => ("", [], [])
    let r1 := Orchestrator.execute cfg pipeline [] "design a cache" (some "") 0
    let r2 := Orchestrator.execute cfg pipeline r1.2.1 "design a cache" (some "") 0
    (assocGet r1.2.1 (TaskCache.normalizeTask "design a cache" (some ""))).map
      TaskCache.CacheEntry.result = some "" ∧ r2.2.2 = true := by
  decide

/-- C10 (amended): when a non-empty summary for the task was cached
within the TTL, a second `execute` with the same task and context does
not invoke the planner and returns a successful result whose summary is
the cached text and whose outputs and conversation are empty. -/
theorem C10_cached_execute (cfg : TaskCache.Config)
    (pipeline : Orchestrator.Pipeline) (task : String) (context : Option String)
    (now1 now2 : Nat) (s : String) (outs : List ExpertOutput)
    (conv : List String)
    (henabled : cfg.enabled = true) (hmax : 1 ≤ cfg.maxSize)
    (hp : pipeline task context = (s, outs, conv)) (hs : s ≠ "")
    (httl : now2 - now1 ≤ cfg.ttl) :
    (Orchestrator.execute cfg pipeline [] task context now1).2.2 = true ∧
    (Orchestrator.execute cfg pipeline
        (Orchestrator.execute cfg pipeline [] task context now1).2.1
        task context now2).2.2 = false ∧
    (Orchestrator.execute cfg pipeline
        (Orchestrator.execute cfg pipeline [] task context now1).2.1
        task context now2).1 =
      { success := true, summary := s, outputs := [], conversation := [] } := by
  have hget0 : TaskCache.get cfg [] task context now1 = (none, []) := by
    simp [TaskCache.get, henabled, assocGet]
  have hr1 : Orchestrator.execute cfg pipeline [] task context now1 =
      ({ success := true, summary := s, outputs := outs, conversation := conv },
       [(TaskCache.normalizeTask task context,
         { task := task, result := s, createdAt := now1, hits := 0 })], true) := by
    have hnz : cfg.maxSize ≠ 0 := by omega
    simp [Orchestrator.execute, hget0, Orchestrator.executeMiss, hp,
      TaskCache.set, henabled, hnz, assocSet]
  have hget1 : TaskCache.get cfg
      [(TaskCache.normalizeTask task context,
        { task := task, result := s, createdAt := now1, hits := 0 })]
      task context now2 =
      (some s,
       [(TaskCache.normalizeTask task context,
         { task := task, result := s, createdAt := now1, hits := 1 })]) := by
    have hexp : TaskCache.expired cfg now2
        { task := task, result := s, createdAt := now1, hits := 0 } = false := by
      simp [TaskCache.expired]
      omega
    simp [TaskCache.get, henabled, assocGet, hexp, assocSet]
  refine ⟨by rw [hr1], ?_, ?_⟩ <;>
    · rw [hr1]
      simp [Orchestrator.execute, hget1, hs]

/-- C10 witness: the amended cached-execution behavior at a concrete
pipeline producing a non-empty summary. -/
theorem C10_witness :
    (Orchestrator.execute { maxSize := 100, ttl := 1000, enabled := true }
        (fun _ _ => ("done", [], []))
        (Orchestrator.execute { maxSize := 100, ttl := 1000, enabled := true }
          (fun _ _ => ("done", [], [])) [] "design a cache" (some "") 0).2.1
        "design a cache" (some "") 400).2.2 = false :=
  (C10_cached_execute { maxSize := 100, ttl := 1000, enabled := true }
      (fun _ _ => ("done", [], [])) "design a cache" (some "") 0 400
      "done" [] [] rfl (by decide) rfl (by decide) (by decide)).2.1

/-! Lemmas about cache eviction and the capacity invariant. -/

/-- Stable sort by hits is a permutation of the input. -/
theorem sortByHits_perm (l : List (String × TaskCache.CacheEntry)) :
    (TaskCache.sortByHits l).Perm l :=
  List.mergeSort_perm l _

/-- Stable sort by hits is pairwise ascending in hit count. -/
theorem sortByHits_sorted (l : List (String × TaskCache.CacheEntry)) :
    List.Pairwise (fun a b : String × TaskCache.CacheEntry => a.2.hits ≤ b.2.hits)
      (TaskCache.sortByHits l) := by
  have h := @List.sorted_mergeSort (String × TaskCache.CacheEntry)
      (fun a b => a.2.hits ≤ b.2.hits)
      (fun a b c hab hbc => by
        simp only [decide_eq_true_eq] at hab hbc ⊢
        omega)
      (fun a b => by
        simp only [Bool.or_eq_true, decide_eq_true_eq]
        omega) l
  exact h.imp (fun hab => by simpa using hab)

/-- Entries of the low-hits block are flagged by the doomed-key list. -/
theorem take_doomed (l : List (String × TaskCache.CacheEntry)) (dc : Nat)
    (p : String × TaskCache.CacheEntry) (hp : p ∈ (TaskCache.sortByHits l).take dc) :
    (((TaskCache.sortByHits l).take dc).map Prod.fst).contains p.1 = true := by
  have : p.1 ∈ ((TaskCache.sortByHits l).take dc).map Prod.fst :=
    List.mem_map_of_mem Prod.fst hp
  simpa [List.contains, List.elem_iff] using this

/-- Entries beyond the low-hits block are not flagged, given unique
keys. -/
theorem drop_not_doomed (l : List (String × TaskCache.CacheEntry)) (dc : Nat)
    (hnd : (l.map Prod.fst).Nodup)
    (q : String × TaskCache.CacheEntry) (hq : q ∈ (TaskCache.sortByHits l).drop dc) :
    (((TaskCache.sortByHits l).take dc).map Prod.fst).contains q.1 = false := by
  have hnds : ((TaskCache.sortByHits l).map Prod.fst).Nodup :=
    (((sortByHits_perm l).map Prod.fst).nodup_iff).mpr hnd
  have hsplit : (TaskCache.sortByHits l).map Prod.fst =
      ((TaskCache.sortByHits l).take dc).map Prod.fst ++
        ((TaskCache.sortByHits l).drop dc).map Prod.fst := by
    rw [← List.map_append, List.take_append_drop]
  rw [hsplit] at hnds
  have hdisj := (List.nodup_append.mp hnds).2.2
  by_contra hcon
  have hcon2 : q.1 ∈ ((TaskCache.sortByHits l).take dc).map Prod.fst := by
    have := Bool.not_eq_false _ |>.mp hcon
    simpa [List.contains, List.elem_iff] using this
  exact hdisj hcon2 (List.mem_map_of_mem Prod.fst hq)

/-- Generic block bound: if a predicate rejects the whole first block of
length `dc`, the filtered list keeps at most `length - dc` elements. -/
theorem length_filter_le_of_take_false {α : Type} (s : List α) (f : α → Bool)
    (dc : Nat) (htake : ∀ p ∈ s.take dc, f p = false) :
    (s.filter f).length ≤ s.length - dc := by
  have hsplit : s.filter f = (s.take dc).filter f ++ (s.drop dc).filter f := by
    conv_lhs => rw [← List.take_append_drop dc s]
    rw [List.filter_append]
  have htake2 : (s.take dc).filter f = [] := by
    rw [List.filter_eq_nil_iff]
    intro p hp
    simp [htake p hp]
  rw [hsplit, htake2, List.nil_append]
  calc ((s.drop dc).filter f).length ≤ (s.drop dc).length := List.length_filter_le _ _
    _ = s.length - dc := by rw [List.length_drop]

/-- Generic block count: if a predicate rejects exactly the first block of
length `dc` and accepts the rest, filtering keeps exactly `length - dc`
elements. -/
theorem length_filter_eq_of_take_false {α : Type} (s : List α) (f : α → Bool)
    (dc : Nat) (htake : ∀ p ∈ s.take dc, f p = false)
    (hdrop : ∀ q ∈ s.drop dc, f q = true) :
    (s.filter f).length = s.length - dc := by
  have hsplit : s.filter f = (s.take dc).filter f ++ (s.drop dc).filter f := by
    conv_lhs => rw [← List.take_append_drop dc s]
    rw [List.filter_append]
  have htake2 : (s.take dc).filter f = [] := by
    rw [List.filter_eq_nil_iff]
    intro p hp
    simp [htake p hp]
  have hdrop2 : (s.drop dc).filter f = s.drop dc := by
    rw [List.filter_eq_self]
    exact hdrop
  rw [hsplit, htake2, hdrop2, List.nil_append, List.length_drop]

/-- Removing the doomed keys keeps at most `length - dc` entries. -/
theorem removeLowHits_length_le (l : List (String × TaskCache.CacheEntry)) (dc : Nat) :
    (l.filter (fun p =>
      ¬ (((TaskCache.sortByHits l).take dc).map Prod.fst).contains p.1)).length ≤
      l.length - dc := by
  have hperm := sortByHits_perm l
  rw [← (hperm.filter _).length_eq]
  calc ((TaskCache.sortByHits l).filter _).length
      ≤ (TaskCache.sortByHits l).length - dc :=
        length_filter_le_of_take_false _ _ dc
          (fun p hp => by
            have h1 : p.1 ∈ List.take dc (List.map Prod.fst (TaskCache.sortByHits l)) := by
              rw [← List.map_take]
              exact List.mem_map_of_mem Prod.fst hp
            simp [h1])
    _ = l.length - dc := by rw [hperm.length_eq]

/-- With unique keys, removing the doomed keys keeps exactly
`length - dc` entries. -/
theorem removeLowHits_length_eq (l : List (String × TaskCache.CacheEntry)) (dc : Nat)
    (hnd : (l.map Prod.fst).Nodup) :
    (l.filter (fun p =>
      ¬ (((TaskCache.sortByHits l).take dc).map Prod.fst).contains p.1)).length =
      l.length - dc := by
  have hperm := sortByHits_perm l
  rw [← (hperm.filter _).length_eq]
  calc ((TaskCache.sortByHits l).filter _).length
      = (TaskCache.sortByHits l).length - dc :=
        length_filter_eq_of_take_false _ _ dc
          (fun p hp => by
            have h1 : p.1 ∈ List.take dc (List.map Prod.fst (TaskCache.sortByHits l)) := by
              rw [← List.map_take]
              exact List.mem_map_of_mem Prod.fst hp
            simp [h1])
          (fun q hq => by
            have h1 : q.1 ∉ List.take dc (List.map Prod.fst (TaskCache.sortByHits l)) := by
              rw [← List.map_take]
              intro hmem
              have h2 := drop_not_doomed l dc hnd q hq
              rw [show (((TaskCache.sortByHits l).take dc).map Prod.fst).contains q.1 =
                  true from by simpa [List.contains, List.elem_iff] using hmem] at h2
              exact absurd h2 (by simp)
            simp [h1])
    _ = l.length - dc := by rw [hperm.length_eq]

/-- Eviction from a cache at or under capacity leaves strictly fewer
entries than the capacity. -/
theorem evict_length_lt (cfg : TaskCache.Config) (cache : TaskCache.Cache)
    (now : Nat) (h1 : 1 ≤ cfg.maxSize) (hlen : cache.length ≤ cfg.maxSize) :
    (TaskCache.evict cfg cache now).length < cfg.maxSize := by
  unfold TaskCache.evict
  dsimp only
  have hple : (cache.filter (fun p => ¬ TaskCache.expired cfg now p.2)).length ≤
      cache.length := List.length_filter_le _ _
  by_cases hcap : cfg.maxSize ≤
      (cache.filter (fun p => ¬ TaskCache.expired cfg now p.2)).length
  · rw [if_pos hcap]
    have hrem := removeLowHits_length_le
      (cache.filter (fun p => ¬ TaskCache.expired cfg now p.2))
      (TaskCache.deleteCount cfg.maxSize)
    have hdc : 1 ≤ TaskCache.deleteCount cfg.maxSize := by
      unfold TaskCache.deleteCount
      omega
    omega
  · rw [if_neg hcap]
    omega

/-- One `set` keeps the cache within capacity. -/
theorem set_length_le (cfg : TaskCache.Config) (cache : TaskCache.Cache)
    (task result : String) (context : Option String) (now : Nat)
    (h1 : 1 ≤ cfg.maxSize) (hlen : cache.length ≤ cfg.maxSize) :
    (TaskCache.set cfg cache task result context now).length ≤ cfg.maxSize := by
  unfold TaskCache.set
  by_cases he : cfg.enabled = true
  · rw [if_neg (by simp [he])]
    dsimp only
    by_cases hfull : cfg.maxSize ≤ cache.length
    · rw [if_pos hfull]
      have h2 := evict_length_lt cfg cache now h1 hlen
      have h3 := length_assocSet_le (TaskCache.evict cfg cache now)
        (TaskCache.normalizeTask task context)
        { task := task, result := result, createdAt := now, hits := 0 }
      omega
    · rw [if_neg hfull]
      have h3 := length_assocSet_le cache (TaskCache.normalizeTask task context)
        { task := task, result := result, createdAt := now, hits := 0 }
      omega
  · rw [if_pos (by simp [he])]
    exact hlen

/-- One `get` never grows the cache. -/
theorem get_length_le (cfg : TaskCache.Config) (cache : TaskCache.Cache)
    (task : String) (context : Option String) (now : Nat) :
    ((TaskCache.get cfg cache task context now).2).length ≤ cache.length := by
  unfold TaskCache.get
  by_cases he : cfg.enabled = true
  · rw [if_neg (by simp [he])]
    dsimp only
    cases hmem : assocGet cache (TaskCache.normalizeTask task context) with
    | none => simp
    | some entry =>
      by_cases hexp : TaskCache.expired cfg now entry = true
      · simp only [hexp, if_true, reduceIte]
        exact List.length_filter_le _ _
      · simp only [hexp, Bool.false_eq_true, if_false, reduceIte]
        rw [length_assocSet_of_mem cache (TaskCache.normalizeTask task context)
          _ entry hmem]
  · rw [if_pos (by simp [he])]

/-- C3 counterexample: with configured capacity 0 (and nothing expired),
a single `set` leaves one stored entry, exceeding the capacity; the
size bound fails for capacity 0 because eviction then deletes zero
entries. -/
theorem C3_counterexample :
    (TaskCache.applyOps { maxSize := 0, ttl := 1000, enabled := true } []
      [TaskCache.Op.set "a" "r" none 0]).length = 1 := by
  simp [TaskCache.applyOps, TaskCache.applyOp, TaskCache.set, TaskCache.evict,
    TaskCache.sortByHits, TaskCache.deleteCount, assocSet]

/-- C3 (amended): for every configured capacity of at least one, the
entry count never exceeds the capacity after any operation sequence on an
enabled cache; eviction removes every TTL-expired entry, and when the
cache is still at capacity afterwards it removes exactly the
`ceil(capacity/5)` entries with the lowest hit counts (stable order),
each removed entry having at most the hit count of every kept one. -/
theorem C3_capacity (cfg : TaskCache.Config) (h1 : 1 ≤ cfg.maxSize) :
    (∀ ops, (TaskCache.applyOps cfg [] ops).length ≤ cfg.maxSize) ∧
    (∀ cache now p, p ∈ TaskCache.evict cfg cache now →
       TaskCache.expired cfg now p.2 = false) ∧
    (∀ cache now, (cache.map Prod.fst).Nodup →
       cfg.maxSize ≤
         (cache.filter (fun p => ¬ TaskCache.expired cfg now p.2)).length →
       (TaskCache.evict cfg cache now).length =
         (cache.filter (fun p => ¬ TaskCache.expired cfg now p.2)).length -
           TaskCache.deleteCount cfg.maxSize ∧
       (∀ p ∈ cache.filter (fun p => ¬ TaskCache.expired cfg now p.2),
          p ∉ TaskCache.evict cfg cache now →
          ∀ q ∈ TaskCache.evict cfg cache now, p.2.hits ≤ q.2.hits)) := by
  refine ⟨?_, ?_, ?_⟩
  · have step : ∀ cache op, cache.length ≤ cfg.maxSize →
        (TaskCache.applyOp cfg cache op).length ≤ cfg.maxSize := by
      intro cache op hlen
      cases op with
      | get task context now =>
        exact le_trans (get_length_le cfg cache task context now) hlen
      | set task result context now =>
        exact set_length_le cfg cache task result context now h1 hlen
    have main : ∀ (ops : List TaskCache.Op) (cache : TaskCache.Cache),
        cache.length ≤ cfg.maxSize →
        (ops.foldl (TaskCache.applyOp cfg) cache).length ≤ cfg.maxSize := by
      intro ops
      induction ops with
      | nil => intro cache hlen; exact hlen
      | cons op rest ih =>
        intro cache hlen
        exact ih _ (step cache op hlen)
    intro ops
    exact main ops [] (by simp)
  · intro cache now p hp
    have hmem : p ∈ cache.filter (fun p => ¬ TaskCache.expired cfg now p.2) := by
      unfold TaskCache.evict at hp
      dsimp only at hp
      by_cases hcap : cfg.maxSize ≤
          (cache.filter (fun p => ¬ TaskCache.expired cfg now p.2)).length
      · rw [if_pos hcap] at hp
        exact (List.mem_filter.mp hp).1
      · rw [if_neg hcap] at hp
        exact hp
    have := (List.mem_filter.mp hmem).2
    simpa using this
  · intro cache now hnd hcap
    have hndp : ((cache.filter (fun p => ¬ TaskCache.expired cfg now p.2)).map
        Prod.fst).Nodup :=
      hnd.sublist ((List.filter_sublist _).map Prod.fst)
    have hevict : TaskCache.evict cfg cache now =
        (cache.filter (fun p => ¬ TaskCache.expired cfg now p.2)).filter (fun p =>
          ¬ (((TaskCache.sortByHits
              (cache.filter (fun p => ¬ TaskCache.expired cfg now p.2))).take
                (TaskCache.deleteCount cfg.maxSize)).map Prod.fst).contains p.1) := by
      unfold TaskCache.evict
      dsimp only
      rw [if_pos hcap]
    constructor
    · rw [hevict]
      exact removeLowHits_length_eq _ _ hndp
    · intro p hp hpke q hq
      rw [hevict] at hpke hq
      set purged := cache.filter (fun p => ¬ TaskCache.expired cfg now p.2) with hpurged
      set dc := TaskCache.deleteCount cfg.maxSize with hdc
      have hperm := sortByHits_perm purged
      have hfp : (((TaskCache.sortByHits purged).take dc).map Prod.fst).contains
          p.1 = true := by
        by_contra hcon
        apply hpke
        rw [List.mem_filter]
        refine ⟨hp, ?_⟩
        simp only [Bool.not_eq_true] at hcon
        have : p.1 ∉ List.take dc (List.map Prod.fst (TaskCache.sortByHits purged)) := by
          rw [← List.map_take]
          intro hmem2
          rw [show (((TaskCache.sortByHits purged).take dc).map Prod.fst).contains
              p.1 = true from by simpa [List.contains, List.elem_iff] using hmem2] at hcon
          cases hcon
        simp [this]
      have hfq : (((TaskCache.sortByHits purged).take dc).map Prod.fst).contains
          q.1 = false := by
        have := (List.mem_filter.mp hq).2
        simp only [decide_eq_true_eq] at this
        by_contra hcon
        simp only [Bool.not_eq_false] at hcon
        have hmem2 : q.1 ∈ ((TaskCache.sortByHits purged).take dc).map Prod.fst := by
          simpa [List.contains, List.elem_iff] using hcon
        rw [List.map_take] at hmem2
        exact this (by rwa [← List.map_take] at hmem2)
      have hpmem : p ∈ TaskCache.sortByHits purged := (hperm.mem_iff).mpr hp
      have hqmem : q ∈ TaskCache.sortByHits purged :=
        (hperm.mem_iff).mpr (List.mem_filter.mp hq).1
      have hptake : p ∈ (TaskCache.sortByHits purged).take dc := by
        have := hpmem
        rw [← List.take_append_drop dc (TaskCache.sortByHits purged),
          List.mem_append] at this
        rcases this with h | h
        · exact h
        · rw [drop_not_doomed purged dc hndp p h] at hfp
          cases hfp
      have hqdrop : q ∈ (TaskCache.sortByHits purged).drop dc := by
        have := hqmem
        rw [← List.take_append_drop dc (TaskCache.sortByHits purged),
          List.mem_append] at this
        rcases this with h | h
        · rw [take_doomed purged dc q h] at hfq
          cases hfq
        · exact h
      have hpw := sortByHits_sorted purged
      rw [← List.take_append_drop dc (TaskCache.sortByHits purged)] at hpw
      exact (List.pairwise_append.mp hpw).2.2 p hptake q hqdrop

/-- C3 witness: the amended capacity bound at a concrete capacity-two
cache under three insertions. -/
theorem C3_witness :
    (TaskCache.applyOps { maxSize := 2, ttl := 1000, enabled := true } []
      [TaskCache.Op.set "a" "ra" none 0, TaskCache.Op.set "b" "rb" none 1,
       TaskCache.Op.set "c" "rc" none 2]).length ≤ 2 :=
  (C3_capacity { maxSize := 2, ttl := 1000, enabled := true } (by decide)).1
    [TaskCache.Op.set "a" "ra" none 0, TaskCache.Op.set "b" "rb" none 1,
     TaskCache.Op.set "c" "rc" none 2]

/-! Lemmas about the wavefront loop. -/

/-- Removing by id never lengthens the pending list. -/
theorem removeById_length_le (l : List SubTask) (id : String) :
    (Orchestrator.removeById l id).length ≤ l.length := by
  induction l with
  | nil => simp [Orchestrator.removeById]
  | cons t rest ih =>
    by_cases h : t.id = id
    · simp [Orchestrator.removeById, h]
    · simp only [Orchestrator.removeById, if_neg h, List.length_cons]
      omega

/-- Removing the id of a present subtask strictly shortens the list. -/
theorem removeById_length_lt (l : List SubTask) (t : SubTask) (ht : t ∈ l) :
    (Orchestrator.removeById l t.id).length < l.length := by
  induction l with
  | nil => cases ht
  | cons u rest ih =>
    by_cases h : u.id = t.id
    · simp [Orchestrator.removeById, h]
    · have ht2 : t ∈ rest := by
        rcases List.mem_cons.mp ht with rfl | h2
        · exact absurd rfl h
        · exact h2
      simp only [Orchestrator.removeById, if_neg h, List.length_cons]
      exact Nat.succ_lt_succ (ih ht2)

/-- A fold of removals never lengthens the list. -/
theorem foldl_removeById_le (rs : List SubTask) (acc : List SubTask) :
    (rs.foldl (fun a t => Orchestrator.removeById a t.id) acc).length ≤ acc.length := by
  induction rs generalizing acc with
  | nil => exact le_refl _
  | cons r rest ih =>
    exact le_trans (ih _) (removeById_length_le acc r.id)

/-- Removing a nonempty ready batch strictly shortens the pending list. -/
theorem removeReady_length_lt (pending : List SubTask) (completed : List String)
    (hne : Orchestrator.readyOf pending completed ≠ []) :
    (Orchestrator.removeReady pending (Orchestrator.readyOf pending completed)).length <
      pending.length := by
  rcases hready : Orchestrator.readyOf pending completed with _ | ⟨r, rest⟩
  · exact absurd hready hne
  · have hr : r ∈ pending := by
      have : r ∈ Orchestrator.readyOf pending completed := by
        rw [hready]; exact List.mem_cons_self r rest
      exact (List.mem_filter.mp this).1
    unfold Orchestrator.removeReady
    calc ((r :: rest).foldl (fun a t => Orchestrator.removeById a t.id) pending).length
        = (rest.foldl (fun a t => Orchestrator.removeById a t.id)
            (Orchestrator.removeById pending r.id)).length := rfl
      _ ≤ (Orchestrator.removeById pending r.id).length := foldl_removeById_le _ _
      _ < pending.length := removeById_length_lt pending r hr

/-- Unfolding equation of the wavefront loop. -/
theorem mixedGoF_eq (experts : List String) (fuel : Nat) (pending : List SubTask)
    (completed outputs : List String) :
    Orchestrator.mixedGoF experts fuel pending completed outputs =
      if pending.isEmpty then some outputs
      else if (Orchestrator.readyOf pending completed).isEmpty then some outputs
      else
        match fuel with
        | 0 => none
        | fuel + 1 =>
          Orchestrator.mixedGoF experts fuel
            (Orchestrator.removeReady pending (Orchestrator.readyOf pending completed))
            (completed ++ (Orchestrator.readyOf pending completed).map (fun t => t.id))
            (outputs ++ Orchestrator.executeParallelIds experts
              (Orchestrator.readyOf pending completed)) := by
  cases fuel <;> rfl

/-- Fuel sufficiency: one round per pending subtask always lets the
wavefront loop leave on its own. -/
theorem mixedGoF_terminates (experts : List String) :
    ∀ (fuel : Nat) (pending : List SubTask) (completed outputs : List String),
      pending.length ≤ fuel →
      ∃ out, Orchestrator.mixedGoF experts fuel pending completed outputs = some out := by
  intro fuel
  induction fuel with
  | zero =>
    intro pending completed outputs hlen
    have : pending = [] := List.length_eq_zero.mp (Nat.le_zero.mp hlen)
    subst this
    exact ⟨outputs, rfl⟩
  | succ fuel ih =>
    intro pending completed outputs hlen
    rw [mixedGoF_eq]
    by_cases hpe : pending.isEmpty
    · rw [if_pos hpe]
      exact ⟨outputs, rfl⟩
    · rw [if_neg hpe]
      by_cases hre : (Orchestrator.readyOf pending completed).isEmpty
      · rw [if_pos hre]
        exact ⟨outputs, rfl⟩
      · rw [if_neg hre]
        have hlt := removeReady_length_lt pending completed
          (by simpa [List.isEmpty_iff] using hre)
        exact ih _ _ _ (by omega)

/-- C6 (confirmed): wavefront execution terminates within one round per
subtask; each round advances by exactly the ready frontier (pending
subtasks whose dependencies are all completed); and when no subtask is
ready while pending work remains, the loop halts returning the outputs
produced so far instead of erroring or looping. -/
theorem C6_mixed_termination (experts : List String) :
    (∀ subtasks : List SubTask,
       ∃ out, Orchestrator.executeMixed experts subtasks = some out) ∧
    (∀ (fuel : Nat) (pending : List SubTask) (completed outputs : List String),
       pending ≠ [] → Orchestrator.readyOf pending completed = [] →
       Orchestrator.mixedGoF experts fuel pending completed outputs = some outputs) ∧
    (∀ (fuel : Nat) (pending : List SubTask) (completed outputs : List String),
       Orchestrator.readyOf pending completed ≠ [] →
       Orchestrator.mixedGoF experts (fuel + 1) pending completed outputs =
         Orchestrator.mixedGoF experts fuel
           (Orchestrator.removeReady pending (Orchestrator.readyOf pending completed))
           (completed ++ (Orchestrator.readyOf pending completed).map (fun t => t.id))
           (outputs ++ Orchestrator.executeParallelIds experts
             (Orchestrator.readyOf pending completed))) := by
  refine ⟨?_, ?_, ?_⟩
  · intro subtasks
    exact mixedGoF_terminates experts subtasks.length subtasks [] [] (le_refl _)
  · intro fuel pending completed outputs hp hr
    rw [mixedGoF_eq]
    rw [if_neg (by simpa [List.isEmpty_iff] using hp)]
    rw [if_pos (by simp [hr])]
  · intro fuel pending completed outputs hr
    have hp : pending ≠ [] := by
      intro h
      subst h
      exact hr rfl
    rw [mixedGoF_eq]
    rw [if_neg (by simpa [List.isEmpty_iff] using hp)]
    rw [if_neg (by simpa [List.isEmpty_iff] using hr)]

/-- Concrete two-subtask dependency cycle. -/
def cyclicTasks : List SubTask :=
  [{ id := "a", description := "A", expertId := "e1"
     dependencies := ["b"], priority := 1 },
   { id := "b", description := "B", expertId := "e1"
     dependencies := ["a"], priority := 1 }]

/-- C6 witness: wavefront execution halts on a concrete dependency
cycle. -/
theorem C6_witness :
    ∃ out, Orchestrator.executeMixed ["e1"] cyclicTasks = some out :=
  (C6_mixed_termination ["e1"]).1 cyclicTasks

/-! Infrastructure for the topological-sort correctness proof. -/

/-- Number of distinct graph ids not yet visited. -/
def unvisitedCount (tasks : List SubTask) (visited : List String) : Nat :=
  ((tasks.map (fun t => t.id)).dedup.filter (fun i => i ∉ visited)).length

/-- Filtering with a stronger predicate keeps at most as many elements. -/
theorem length_filter_mono {α : Type} (l : List α) (p q : α → Bool)
    (h : ∀ x, q x = true → p x = true) :
    (l.filter q).length ≤ (l.filter p).length := by
  induction l with
  | nil => simp
  | cons a rest ih =>
    by_cases hq : q a = true
    · rw [List.filter_cons_of_pos hq, List.filter_cons_of_pos (h a hq)]
      simpa using ih
    · rw [List.filter_cons_of_neg (by simpa using hq)]
      by_cases hp : p a = true
      · rw [List.filter_cons_of_pos hp]
        simp only [List.length_cons]
        omega
      · rw [List.filter_cons_of_neg (by simpa using hp)]
        exact ih

/-- Filtering with a strictly stronger predicate, witnessed at a member,
keeps strictly fewer elements. -/
theorem length_filter_strict {α : Type} (l : List α) (p q : α → Bool)
    (h : ∀ y, q y = true → p y = true) (x : α) (hx : x ∈ l)
    (hpx : p x = true) (hqx : q x = false) :
    (l.filter q).length < (l.filter p).length := by
  induction l with
  | nil => cases hx
  | cons a rest ih =>
    rcases List.mem_cons.mp hx with rfl | hx2
    · rw [List.filter_cons_of_pos hpx, List.filter_cons_of_neg (by simp [hqx])]
      have := length_filter_mono rest p q h
      simp only [List.length_cons]
      omega
    · by_cases hq : q a = true
      · rw [List.filter_cons_of_pos hq, List.filter_cons_of_pos (h a hq)]
        simpa using ih hx2
      · rw [List.filter_cons_of_neg (by simpa using hq)]
        by_cases hp : p a = true
        · rw [List.filter_cons_of_pos hp]
          have := ih hx2
          simp only [List.length_cons]
          omega
        · rw [List.filter_cons_of_neg (by simpa using hp)]
          exact ih hx2

/-- Monotonicity of the unvisited counter under growing visited sets. -/
theorem unvisitedCount_mono (tasks : List SubTask) (v1 v2 : List String)
    (h : ∀ x ∈ v1, x ∈ v2) :
    unvisitedCount tasks v2 ≤ unvisitedCount tasks v1 := by
  unfold unvisitedCount
  apply length_filter_mono
  intro x hx
  simp only [decide_eq_true_eq] at hx ⊢
  intro hmem
  exact hx (h x hmem)

/-- Strict decrease of the unvisited counter when a fresh graph id is
visited. -/
theorem unvisitedCount_strict (tasks : List SubTask) (v1 v2 : List String)
    (h : ∀ x ∈ v1, x ∈ v2) (x : String)
    (hxg : x ∈ tasks.map (fun t => t.id)) (hx1 : x ∉ v1) (hx2 : x ∈ v2) :
    unvisitedCount tasks v2 < unvisitedCount tasks v1 := by
  unfold unvisitedCount
  refine length_filter_strict _ _ _ ?_ x ?_ ?_ ?_
  · intro y hy
    simp only [decide_eq_true_eq] at hy ⊢
    intro hmem
    exact hy (h y hmem)
  · exact List.mem_dedup.mpr hxg
  · simpa using hx1
  · simpa using hx2

/-- The unvisited counter never exceeds the number of subtasks. -/
theorem unvisitedCount_le (tasks : List SubTask) (visited : List String) :
    unvisitedCount tasks visited ≤ tasks.length := by
  unfold unvisitedCount
  calc ((tasks.map (fun t => t.id)).dedup.filter _).length
      ≤ (tasks.map (fun t => t.id)).dedup.length := List.length_filter_le _ _
    _ ≤ (tasks.map (fun t => t.id)).length :=
        (List.dedup_sublist _).length_le
    _ = tasks.length := List.length_map _ _

/-- A hit in the id map is a member of the graph carrying the looked-up
id. -/
theorem taskMapGet_mem (tasks : List SubTask) (d : String) (u : SubTask)
    (h : Orchestrator.taskMapGet tasks d = some u) : u ∈ tasks ∧ u.id = d := by
  unfold Orchestrator.taskMapGet at h
  constructor
  · have := List.mem_of_find?_eq_some h
    exact List.mem_reverse.mp this
  · have := List.find?_some h
    simpa using this

/-- Every declared graph id is found by the id map. -/
theorem taskMapGet_isSome (tasks : List SubTask) (d : String)
    (h : d ∈ tasks.map (fun t => t.id)) :
    ∃ u, Orchestrator.taskMapGet tasks d = some u := by
  rcases List.mem_map.mp h with ⟨t, ht, rfl⟩
  unfold Orchestrator.taskMapGet
  cases hfind : tasks.reverse.find? (fun u => u.id = t.id) with
  | none =>
    rw [List.find?_eq_none] at hfind
    exact absurd (by simp) (hfind t (List.mem_reverse.mpr ht))
  | some u => exact ⟨u, rfl⟩

/-- Splitting a cons cell out of a list extended by one element on the
right. -/
theorem append_singleton_decomp {α : Type} (l : List α) (a : α)
    (pre post : List α) (u : α) (h : l ++ [a] = pre ++ u :: post) :
    (pre = l ∧ u = a ∧ post = []) ∨
    (∃ post2, post = post2 ++ [a] ∧ l = pre ++ u :: post2) := by
  rcases List.eq_nil_or_concat post with rfl | ⟨post2, b, rfl⟩
  · left
    have h2 : l ++ [a] = pre ++ [u] := h
    have := List.append_inj' h2 (by simp)
    exact ⟨this.1.symm, by simpa using this.2.symm, rfl⟩
  · right
    have h2 : l ++ [a] = (pre ++ u :: post2) ++ [b] := by
      rw [h]
      simp [List.concat_eq_append]
    have := List.append_inj' h2 (by simp)
    refine ⟨post2, ?_, this.1⟩
    have hb : a = b := by simpa using this.2
    rw [List.concat_eq_append, hb]

/-- Two graph members with the same id are equal when ids are unique. -/
theorem eq_of_mem_of_id_eq (tasks : List SubTask)
    (hnd : (tasks.map (fun t => t.id)).Nodup) (t u : SubTask)
    (ht : t ∈ tasks) (hu : u ∈ tasks) (h : t.id = u.id) : t = u := by
  induction tasks with
  | nil => cases ht
  | cons a rest ih =>
    simp only [List.map_cons, List.nodup_cons] at hnd
    rcases List.mem_cons.mp ht with rfl | ht2 <;>
      rcases List.mem_cons.mp hu with rfl | hu2
    · rfl
    · exact absurd (h ▸ List.mem_map_of_mem (fun w => w.id) hu2) hnd.1
    · exact absurd (h ▸ List.mem_map_of_mem (fun w => w.id) ht2) hnd.1
    · exact ih hnd.2 ht2 hu2

/-- Invariant of the depth-first visit state: the output list holds graph
members with unique, already-visited ids, and every in-graph dependency
of an emitted subtask is emitted earlier. -/
structure TopoInv (tasks : List SubTask) (visited : List String)
    (sorted : List SubTask) : Prop where
  memTasks : ∀ u ∈ sorted, u ∈ tasks
  nodupIds : (sorted.map (fun u => u.id)).Nodup
  idsVisited : ∀ u ∈ sorted, u.id ∈ visited
  depsBefore : ∀ pre u post, sorted = pre ++ u :: post → ∀ d ∈ u.dependencies,
    d ∈ tasks.map (fun w => w.id) → d ∈ pre.map (fun w => w.id)

/-- Relation between the visit state before and after one call: the
invariant is preserved, the visited set grows, the output extends, the
grey set (visited but not emitted) is unchanged, and growth stays within
the graph ids. -/
structure VisitOut (tasks : List SubTask) (visited : List String)
    (sorted : List SubTask) (r : List String × List SubTask) : Prop where
  inv : TopoInv tasks r.1 r.2
  vMono : ∀ x ∈ visited, x ∈ r.1
  sExt : ∃ Δ, r.2 = sorted ++ Δ
  greyEq : ∀ x, (x ∈ r.1 ∧ x ∉ r.2.map (fun u => u.id)) ↔
      (x ∈ visited ∧ x ∉ sorted.map (fun u => u.id))
  vBound : ∀ x ∈ r.1, x ∈ visited ∨ x ∈ tasks.map (fun u => u.id)

/-- One step of the dependency fold inside the depth-first visit. -/
def visitStep (tasks : List SubTask) (fuel : Nat) :
    (List String × List SubTask) → String → (List String × List SubTask) :=
  fun acc d =>
    match Orchestrator.taskMapGet tasks d with
    | none => acc
    | some dep => Orchestrator.visitF tasks fuel dep acc.1 acc.2

/-- Unfolding equation of the depth-first visit at positive fuel. -/
theorem visitF_eq (tasks : List SubTask) (fuel : Nat) (t : SubTask)
    (visited : List String) (sorted : List SubTask) :
    Orchestrator.visitF tasks (fuel + 1) t visited sorted =
      if t.id ∈ visited then (visited, sorted)
      else
        ((t.dependencies.foldl (visitStep tasks fuel) (t.id :: visited, sorted)).1,
         (t.dependencies.foldl (visitStep tasks fuel)
           (t.id :: visited, sorted)).2 ++ [t]) := rfl

/-- Correctness of the depth-first visit on acyclic graphs: assuming a
rank function witnessing acyclicity and the state invariant, one visit
preserves the invariant, leaves the grey set unchanged, and ends with the
target emitted. -/
theorem visitF_spec (tasks : List SubTask) (rank : String → Nat)
    (hrank : ∀ t ∈ tasks, ∀ d ∈ t.dependencies, rank d < rank t.id) :
    ∀ (fuel : Nat) (t : SubTask) (visited : List String) (sorted : List SubTask),
      t ∈ tasks → TopoInv tasks visited sorted →
      (∀ g ∈ visited, g ∉ sorted.map (fun u => u.id) → rank t.id < rank g) →
      unvisitedCount tasks visited < fuel →
      VisitOut tasks visited sorted (Orchestrator.visitF tasks fuel t visited sorted) ∧
      t.id ∈ (Orchestrator.visitF tasks fuel t visited sorted).2.map (fun u => u.id) := by
  intro fuel
  induction fuel with
  | zero => intro t visited sorted _ _ _ hfuel; omega
  | succ fuel ih =>
    intro t visited sorted ht hInv hgrey hfuel
    by_cases hv : t.id ∈ visited
    · rw [visitF_eq, if_pos hv]
      have htid : t.id ∈ sorted.map (fun u => u.id) := by
        by_contra hcon
        exact absurd (hgrey t.id hv hcon) (lt_irrefl _)
      exact ⟨⟨hInv, fun x hx => hx, ⟨[], by simp⟩, fun x => Iff.rfl,
        fun x hx => Or.inl hx⟩, htid⟩
    · rw [visitF_eq, if_neg hv]
      have hvEntry : TopoInv tasks (t.id :: visited) sorted :=
        ⟨hInv.memTasks, hInv.nodupIds,
         fun u hu => List.mem_cons_of_mem _ (hInv.idsVisited u hu), hInv.depsBefore⟩
      have htids : t.id ∉ sorted.map (fun u => u.id) := by
        intro hcon
        rcases List.mem_map.mp hcon with ⟨u, hu, hueq⟩
        exact hv (hueq ▸ hInv.idsVisited u hu)
      have htg : t.id ∈ tasks.map (fun u => u.id) :=
        List.mem_map_of_mem (fun u => u.id) ht
      have hfold : ∀ (ds : List String), (∀ d ∈ ds, d ∈ t.dependencies) →
          ∀ (v : List String) (s : List SubTask),
          TopoInv tasks v s →
          (∀ x ∈ t.id :: visited, x ∈ v) →
          (∀ x, (x ∈ v ∧ x ∉ s.map (fun u => u.id)) ↔
                (x ∈ t.id :: visited ∧ x ∉ sorted.map (fun u => u.id))) →
          (∀ x ∈ v, x ∈ t.id :: visited ∨ x ∈ tasks.map (fun u => u.id)) →
          TopoInv tasks (ds.foldl (visitStep tasks fuel) (v, s)).1
              (ds.foldl (visitStep tasks fuel) (v, s)).2 ∧
          (∀ x ∈ v, x ∈ (ds.foldl (visitStep tasks fuel) (v, s)).1) ∧
          (∃ Δ, (ds.foldl (visitStep tasks fuel) (v, s)).2 = s ++ Δ) ∧
          (∀ x, (x ∈ (ds.foldl (visitStep tasks fuel) (v, s)).1 ∧
                 x ∉ (ds.foldl (visitStep tasks fuel) (v, s)).2.map (fun u => u.id)) ↔
                (x ∈ t.id :: visited ∧ x ∉ sorted.map (fun u => u.id))) ∧
          (∀ x ∈ (ds.foldl (visitStep tasks fuel) (v, s)).1,
             x ∈ t.id :: visited ∨ x ∈ tasks.map (fun u => u.id)) ∧
          (∀ d ∈ ds, ∀ dep, Orchestrator.taskMapGet tasks d = some dep →
             d ∈ (ds.foldl (visitStep tasks fuel) (v, s)).2.map (fun u => u.id)) := by
        intro ds
        induction ds with
        | nil =>
          intro _ v s h1 h2 h3 h4
          exact ⟨h1, fun x hx => hx, ⟨[], by simp⟩, h3, h4, by simp⟩
        | cons d ds ih2 =>
          intro hsub v s h1 h2 h3 h4
          have hd : d ∈ t.dependencies := hsub d (List.mem_cons_self d ds)
          rw [List.foldl_cons]
          cases hmg : Orchestrator.taskMapGet tasks d with
          | none =>
            rw [show visitStep tasks fuel (v, s) d = (v, s) by
              unfold visitStep
              rw [hmg]]
            have hrest := ih2 (fun d2 hd2 => hsub d2 (List.mem_cons_of_mem d hd2))
              v s h1 h2 h3 h4
            refine ⟨hrest.1, hrest.2.1, hrest.2.2.1, hrest.2.2.2.1,
              hrest.2.2.2.2.1, ?_⟩
            intro d2 hd2 dep hdep
            rcases List.mem_cons.mp hd2 with rfl | hd3
            · rw [hmg] at hdep
              cases hdep
            · exact hrest.2.2.2.2.2 d2 hd3 dep hdep
          | some dep =>
            have hdm := taskMapGet_mem tasks d dep hmg
            have hstep : visitStep tasks fuel (v, s) d =
                Orchestrator.visitF tasks fuel dep v s := by
              unfold visitStep
              rw [hmg]
            rw [hstep]
            have hrankd : rank d < rank t.id := hrank t ht d hd
            have hgrey2 : ∀ g ∈ v, g ∉ s.map (fun u => u.id) →
                rank dep.id < rank g := by
              intro g hg hgs
              have hmix := (h3 g).mp ⟨hg, hgs⟩
              rcases List.mem_cons.mp hmix.1 with rfl | hgv
              · rw [hdm.2]
                exact hrankd
              · rw [hdm.2]
                exact lt_trans hrankd (hgrey g hgv hmix.2)
            have htidv : t.id ∈ v := h2 t.id (List.mem_cons_self _ _)
            have hfuel2 : unvisitedCount tasks v < fuel := by
              have h5 : unvisitedCount tasks v ≤
                  unvisitedCount tasks (t.id :: visited) :=
                unvisitedCount_mono tasks (t.id :: visited) v h2
              have h6 : unvisitedCount tasks (t.id :: visited) <
                  unvisitedCount tasks visited :=
                unvisitedCount_strict tasks visited (t.id :: visited)
                  (fun x hx => List.mem_cons_of_mem _ hx) t.id htg hv
                  (List.mem_cons_self _ _)
              omega
            obtain ⟨hout, hpushed⟩ := ih dep v s hdm.1 h1 hgrey2 hfuel2
            have h2b : ∀ x ∈ t.id :: visited,
                x ∈ (Orchestrator.visitF tasks fuel dep v s).1 :=
              fun x hx => hout.vMono x (h2 x hx)
            have h3b : ∀ x, (x ∈ (Orchestrator.visitF tasks fuel dep v s).1 ∧
                x ∉ (Orchestrator.visitF tasks fuel dep v s).2.map (fun u => u.id)) ↔
                (x ∈ t.id :: visited ∧ x ∉ sorted.map (fun u => u.id)) := by
              intro x
              rw [hout.greyEq x]
              exact h3 x
            have h4b : ∀ x ∈ (Orchestrator.visitF tasks fuel dep v s).1,
                x ∈ t.id :: visited ∨ x ∈ tasks.map (fun u => u.id) := by
              intro x hx
              rcases hout.vBound x hx with h | h
              · exact h4 x h
              · exact Or.inr h
            have hrest := ih2 (fun d2 hd2 => hsub d2 (List.mem_cons_of_mem d hd2))
              (Orchestrator.visitF tasks fuel dep v s).1
              (Orchestrator.visitF tasks fuel dep v s).2 hout.inv h2b h3b h4b
            refine ⟨hrest.1, ?_, ?_, hrest.2.2.2.1, hrest.2.2.2.2.1, ?_⟩
            · intro x hx
              exact hrest.2.1 x (hout.vMono x hx)
            · obtain ⟨d1, he1⟩ := hout.sExt
              obtain ⟨d2, he2⟩ := hrest.2.2.1
              exact ⟨d1 ++ d2, by rw [he2, he1, List.append_assoc]⟩
            · intro d2 hd2 dep2 hdep2
              rcases List.mem_cons.mp hd2 with rfl | hd3
              · rw [hmg] at hdep2
                injection hdep2 with hdep3
                subst hdep3
                obtain ⟨d3, he3⟩ := hrest.2.2.1
                rw [he3, List.map_append]
                exact List.mem_append_left _ (hdm.2 ▸ hpushed)
              · exact hrest.2.2.2.2.2 d2 hd3 dep2 hdep2
      obtain ⟨hi1, hi2, hi3, hi4, hi5, hi6⟩ := hfold t.dependencies (fun d hd => hd)
        (t.id :: visited) sorted hvEntry (fun x hx => hx)
        (fun x => Iff.rfl) (fun x hx => Or.inl hx)
      have htacc : t.id ∈
          (t.dependencies.foldl (visitStep tasks fuel) (t.id :: visited, sorted)).1 :=
        hi2 t.id (List.mem_cons_self _ _)
      have htnotS : t.id ∉
          (t.dependencies.foldl (visitStep tasks fuel)
            (t.id :: visited, sorted)).2.map (fun u => u.id) := by
        have := (hi4 t.id).mpr ⟨List.mem_cons_self _ _, htids⟩
        exact this.2
      constructor
      · refine ⟨⟨?_, ?_, ?_, ?_⟩, ?_, ?_, ?_, ?_⟩
        · intro u hu
          rcases List.mem_append.mp hu with hu2 | hu2
          · exact hi1.memTasks u hu2
          · rw [List.mem_singleton.mp hu2]
            exact ht
        · rw [List.map_append]
          rw [List.nodup_append]
          refine ⟨hi1.nodupIds, List.nodup_singleton _, ?_⟩
          intro a ha hb
          rw [show (List.map (fun u => u.id) [t] : List String) = [t.id] by simp] at hb
          rw [List.mem_singleton.mp hb] at ha
          exact htnotS ha
        · intro u hu
          rcases List.mem_append.mp hu with hu2 | hu2
          · exact hi1.idsVisited u hu2
          · rw [List.mem_singleton.mp hu2]
            exact htacc
        · intro pre u post heq d hd hdg
          rcases append_singleton_decomp _ t pre post u heq with
            ⟨hpre, hu, _⟩ | ⟨post2, _, hacc2⟩
          · subst hpre
            subst hu
            obtain ⟨dep, hdep⟩ := taskMapGet_isSome tasks d hdg
            exact hi6 d hd dep hdep
          · exact hi1.depsBefore pre u post2 hacc2 d hd hdg
        · intro x hx
          exact hi2 x (List.mem_cons_of_mem _ hx)
        · obtain ⟨d1, he1⟩ := hi3
          exact ⟨d1 ++ [t], by rw [he1, List.append_assoc]⟩
        · intro x
          constructor
          · intro ⟨hx1, hx2⟩
            rw [List.map_append] at hx2
            have hx3 : x ∉ (t.dependencies.foldl (visitStep tasks fuel)
                (t.id :: visited, sorted)).2.map (fun u => u.id) := by
              intro hcon
              exact hx2 (List.mem_append_left _ hcon)
            have hx4 := (hi4 x).mp ⟨hx1, hx3⟩
            have hxne : x ≠ t.id := by
              intro hcon
              apply hx2
              apply List.mem_append_right
              simp [hcon]
            rcases List.mem_cons.mp hx4.1 with hcon | hxv
            · exact absurd hcon hxne
            · exact ⟨hxv, hx4.2⟩
          · intro ⟨hxv, hxs⟩
            have hxne : x ≠ t.id := by
              intro hcon
              exact hv (hcon ▸ hxv)
            have hx4 := (hi4 x).mpr ⟨List.mem_cons_of_mem _ hxv, hxs⟩
            refine ⟨hx4.1, ?_⟩
            rw [List.map_append]
            intro hcon
            rcases List.mem_append.mp hcon with hcon2 | hcon2
            · exact hx4.2 hcon2
            · simp only [List.map_cons, List.map_nil,
                List.mem_singleton] at hcon2
              exact hxne hcon2
        · intro x hx
          rcases hi5 x hx with h | h
          · rcases List.mem_cons.mp h with rfl | hxv
            · exact Or.inr htg
            · exact Or.inl hxv
          · exact Or.inr h
      · rw [List.map_append]
        apply List.mem_append_right
        simp

/-- Correctness of the outer visiting loop of the topological sort: grey
sets stay empty, the invariant is preserved, and every processed subtask
ends up emitted. -/
theorem topoFold_spec (tasks : List SubTask) (rank : String → Nat)
    (hrank : ∀ t ∈ tasks, ∀ d ∈ t.dependencies, rank d < rank t.id) :
    ∀ (ts : List SubTask), (∀ u ∈ ts, u ∈ tasks) →
    ∀ (v : List String) (s : List SubTask),
      TopoInv tasks v s →
      (∀ x ∈ v, x ∈ s.map (fun u => u.id)) →
      TopoInv tasks
          (ts.foldl (fun acc u =>
            Orchestrator.visitF tasks (tasks.length + 1) u acc.1 acc.2) (v, s)).1
          (ts.foldl (fun acc u =>
            Orchestrator.visitF tasks (tasks.length + 1) u acc.1 acc.2) (v, s)).2 ∧
      (∃ Δ, (ts.foldl (fun acc u =>
            Orchestrator.visitF tasks (tasks.length + 1) u acc.1 acc.2) (v, s)).2 =
          s ++ Δ) ∧
      (∀ x ∈ (ts.foldl (fun acc u =>
            Orchestrator.visitF tasks (tasks.length + 1) u acc.1 acc.2) (v, s)).1,
         x ∈ (ts.foldl (fun acc u =>
            Orchestrator.visitF tasks (tasks.length + 1) u acc.1 acc.2) (v, s)).2.map
           (fun u => u.id)) ∧
      (∀ u ∈ ts, u.id ∈ (ts.foldl (fun acc u =>
            Orchestrator.visitF tasks (tasks.length + 1) u acc.1 acc.2) (v, s)).2.map
           (fun w => w.id)) := by
  intro ts
  induction ts with
  | nil =>
    intro _ v s h1 h2
    exact ⟨h1, ⟨[], by simp⟩, h2, by simp⟩
  | cons u ts ih =>
    intro hmem v s h1 h2
    have hu : u ∈ tasks := hmem u (List.mem_cons_self u ts)
    have hfuel : unvisitedCount tasks v < tasks.length + 1 := by
      have := unvisitedCount_le tasks v
      omega
    obtain ⟨hout, hpush⟩ := visitF_spec tasks rank hrank (tasks.length + 1) u v s
      hu h1 (fun g hg hgs => absurd (h2 g hg) hgs) hfuel
    rw [List.foldl_cons]
    have h2b : ∀ x ∈ (Orchestrator.visitF tasks (tasks.length + 1) u v s).1,
        x ∈ (Orchestrator.visitF tasks (tasks.length + 1) u v s).2.map
          (fun w => w.id) := by
      intro x hx
      by_contra hcon
      have := (hout.greyEq x).mp ⟨hx, hcon⟩
      exact absurd (h2 x this.1) this.2
    have hrest := ih (fun w hw => hmem w (List.mem_cons_of_mem u hw))
      (Orchestrator.visitF tasks (tasks.length + 1) u v s).1
      (Orchestrator.visitF tasks (tasks.length + 1) u v s).2 hout.inv h2b
    refine ⟨hrest.1, ?_, hrest.2.2.1, ?_⟩
    · obtain ⟨d1, he1⟩ := hout.sExt
      obtain ⟨d2, he2⟩ := hrest.2.1
      exact ⟨d1 ++ d2, by rw [he2, he1, List.append_assoc]⟩
    · intro w hw
      rcases List.mem_cons.mp hw with rfl | hw2
      · obtain ⟨d2, he2⟩ := hrest.2.1
        rw [he2, List.map_append]
        exact List.mem_append_left _ hpush
      · exact hrest.2.2.2 w hw2

/-- Correctness of the depth-first topological sort on well-formed
acyclic graphs: the output consists of graph members with unique ids,
contains every graph id, and lists every in-graph dependency of an
emitted subtask before it. -/
theorem topologicalSort_spec (tasks : List SubTask) (rank : String → Nat)
    (hrank : ∀ t ∈ tasks, ∀ d ∈ t.dependencies, rank d < rank t.id) :
    (∀ u ∈ Orchestrator.topologicalSort tasks, u ∈ tasks) ∧
    ((Orchestrator.topologicalSort tasks).map (fun u => u.id)).Nodup ∧
    (∀ pre u post, Orchestrator.topologicalSort tasks = pre ++ u :: post →
       ∀ d ∈ u.dependencies, d ∈ tasks.map (fun w => w.id) →
       d ∈ pre.map (fun w => w.id)) ∧
    (∀ t ∈ tasks, t.id ∈ (Orchestrator.topologicalSort tasks).map (fun u => u.id)) := by
  have hInv0 : TopoInv tasks [] [] := by
    refine ⟨by simp, by simp, by simp, ?_⟩
    intro pre u post heq
    exact absurd heq.symm (List.append_ne_nil_of_right_ne_nil pre (by simp))
  have h := topoFold_spec tasks rank hrank tasks (fun u hu => hu) [] [] hInv0 (by simp)
  exact ⟨h.1.memTasks, h.1.nodupIds, h.1.depsBefore, h.2.2.2⟩

/-- The sequential walk executes every subtask, in order, when experts
exist and each subtask's dependencies lie among the earlier entries or
the initially completed set. -/
theorem seqGo_all (experts : List String) :
    ∀ (l : List SubTask) (completed : List String),
      (∀ u ∈ l, experts.contains u.expertId = true) →
      (∀ pre u post, l = pre ++ u :: post → ∀ d ∈ u.dependencies,
         d ∈ pre.map (fun w => w.id) ∨ d ∈ completed) →
      Orchestrator.seqGo experts l completed = l.map (fun t => t.id) := by
  intro l
  induction l with
  | nil => intro completed _ _; rfl
  | cons t rest ih =>
    intro completed hexp hdeps
    have hdt : ∀ d ∈ t.dependencies, d ∈ completed := by
      intro d hd
      rcases hdeps [] t rest rfl d hd with h | h
      · simp at h
      · exact h
    have hcan : t.dependencies.all (fun d => completed.contains d) = true := by
      rw [List.all_eq_true]
      intro d hd
      have := hdt d hd
      simpa [List.contains, List.elem_iff] using this
    have hex : experts.contains t.expertId = true :=
      hexp t (List.mem_cons_self t rest)
    have hstep : Orchestrator.seqGo experts (t :: rest) completed =
        if t.dependencies.all (fun d => completed.contains d) then
          if experts.contains t.expertId then
            t.id :: Orchestrator.seqGo experts rest (t.id :: completed)
          else Orchestrator.seqGo experts rest completed
        else Orchestrator.seqGo experts rest completed := rfl
    rw [hstep, if_pos hcan, if_pos hex, List.map_cons]
    congr 1
    apply ih
    · intro u hu
      exact hexp u (List.mem_cons_of_mem t hu)
    · intro pre u post heq d hd
      rcases hdeps (t :: pre) u post (by rw [heq]; rfl) d hd with h | h
      · rw [List.map_cons] at h
        rcases List.mem_cons.mp h with rfl | h2
        · exact Or.inr (List.mem_cons_self _ _)
        · exact Or.inl h2
      · exact Or.inr (List.mem_cons_of_mem _ h)

/-- C5 (confirmed): on a well-formed acyclic graph (unique ids, no
dangling dependency ids, a rank function witnessing acyclicity) whose
experts all exist, sequential execution executes exactly the depth-first
topological order — every subtask id exactly once, each strictly after
all of its declared dependencies. -/
theorem C5_sequential (experts : List String) (tasks : List SubTask)
    (hnd : (tasks.map (fun t => t.id)).Nodup)
    (hclosed : ∀ t ∈ tasks, ∀ d ∈ t.dependencies,
      d ∈ tasks.map (fun w => w.id))
    (hacyclic : ∃ rank : String → Nat,
      ∀ t ∈ tasks, ∀ d ∈ t.dependencies, rank d < rank t.id)
    (hexp : ∀ t ∈ tasks, experts.contains t.expertId = true) :
    Orchestrator.executeSequential experts tasks =
      (Orchestrator.topologicalSort tasks).map (fun t => t.id) ∧
    (Orchestrator.executeSequential experts tasks).Perm
      (tasks.map (fun t => t.id)) ∧
    (∀ pre id2 post,
       Orchestrator.executeSequential experts tasks = pre ++ id2 :: post →
       ∀ t ∈ tasks, t.id = id2 → ∀ d ∈ t.dependencies, d ∈ pre) := by
  obtain ⟨rank, hrank⟩ := hacyclic
  obtain ⟨hmem, hnds, hdepsb, hall⟩ := topologicalSort_spec tasks rank hrank
  have hmain : Orchestrator.executeSequential experts tasks =
      (Orchestrator.topologicalSort tasks).map (fun t => t.id) := by
    unfold Orchestrator.executeSequential
    apply seqGo_all
    · intro u hu
      exact hexp u (hmem u hu)
    · intro pre u post heq d hd
      have huS : u ∈ Orchestrator.topologicalSort tasks := by
        rw [heq]
        exact List.mem_append_right _ (List.mem_cons_self u post)
      exact Or.inl (hdepsb pre u post heq d hd (hclosed u (hmem u huS) d hd))
  have hperm : ((Orchestrator.topologicalSort tasks).map (fun t => t.id)).Perm
      (tasks.map (fun t => t.id)) := by
    rw [List.perm_ext_iff_of_nodup hnds hnd]
    intro a
    constructor
    · intro ha
      rcases List.mem_map.mp ha with ⟨u, hu, rfl⟩
      exact List.mem_map_of_mem (fun t => t.id) (hmem u hu)
    · intro ha
      rcases List.mem_map.mp ha with ⟨u, hu, rfl⟩
      exact hall u hu
  refine ⟨hmain, by rw [hmain]; exact hperm, ?_⟩
  intro pre id2 post heq t ht hid d hd
  rw [hmain] at heq
  rcases List.map_eq_append_iff.mp heq with ⟨preS, restS, hsplit, hpre, hrest⟩
  cases restS with
  | nil => simp at hrest
  | cons u postS =>
    rw [List.map_cons] at hrest
    have huid : u.id = id2 := (List.cons.injEq _ _ _ _).mp hrest |>.1
    have hpostS : postS.map (fun t => t.id) = post :=
      (List.cons.injEq _ _ _ _).mp hrest |>.2
    have hu : u ∈ Orchestrator.topologicalSort tasks := by
      rw [hsplit]
      exact List.mem_append_right _ (List.mem_cons_self u postS)
    have htu : t = u :=
      eq_of_mem_of_id_eq tasks hnd t u ht (hmem u hu) (by rw [hid, huid])
    have hdg : d ∈ tasks.map (fun w => w.id) := hclosed t ht d hd
    have := hdepsb preS u postS hsplit d (htu ▸ hd) hdg
    rw [← hpre]
    exact this

/-- Concrete three-subtask diamond-free graph: b and c both depend on a. -/
def sampleGraph : List SubTask :=
  [{ id := "a", description := "base", expertId := "e1"
     dependencies := [], priority := 1 },
   { id := "b", description := "left", expertId := "e1"
     dependencies := ["a"], priority := 2 },
   { id := "c", description := "right", expertId := "e1"
     dependencies := ["a"], priority := 2 }]

/-- C5 witness: sequential execution of the concrete graph covers each
subtask id exactly once. -/
theorem C5_witness :
    (Orchestrator.executeSequential ["e1"] sampleGraph).Perm
      (sampleGraph.map (fun t => t.id)) :=
  (C5_sequential ["e1"] sampleGraph (by decide) (by decide)
    ⟨fun s => if s = "a" then 0 else 1, by decide⟩ (by decide)).2.1
